import Mathlib

/-!
Verification of the text-document engine (textModel.ts of the disassembly UI).

The development shallowly embeds the TypeScript source of
src/Extension/ui/disassembly/model/textModel.ts.  Strings are sequences of
UTF-16 code units (Nat), positions and ranges carry Int coordinates exactly
as the source works on raw JavaScript numbers (the source floors its inputs;
Math.floor is the identity on the integers we quantify over, and the
typeof/NaN guards of the source are vacuous here).  Components the source
imports from files that are not part of this snapshot (the piece-tree text
buffer, the interval tree, the event classes, the Range constructor and the
version counter) are modelled from the specification; each such definition
says so in its doc comment.
-/

set_option maxHeartbeats 1000000

namespace TextModelSpec

/-- One line of the document: a list of UTF-16 code units. -/
abbrev Line := List Nat

/-- Flat document text: a list of UTF-16 code units. -/
abbrev Str := List Nat

/-- Modelled from the spec: the line-addressable text buffer state
(the piece-tree buffer implementation is not under src).  Stores the
document content as an ordered sequence of lines. -/
structure TextBuffer where
  lines : List Line
deriving DecidableEq, Repr

/-- Modelled from the spec: strings.isHighSurrogate (strings.ts is not
under src); standard UTF-16 high-surrogate classification. -/
def isHighSurrogate (c : Nat) : Bool :=
  0xD800 ≤ c && c < 0xDC00

/-- Modelled from the spec: strings.isLowSurrogate; standard UTF-16
low-surrogate classification. -/
def isLowSurrogate (c : Nat) : Bool :=
  0xDC00 ≤ c && c < 0xE000

/-- A 1-based (line, column) coordinate, as the source's Position class.
Coordinates are Int because the source accepts arbitrary numbers. -/
structure Pos where
  lineNumber : Int
  column : Int
deriving DecidableEq, Repr

/-- A pair of endpoint coordinates, as the source's IRange shape. -/
structure Rng where
  startLineNumber : Int
  startColumn : Int
  endLineNumber : Int
  endColumn : Int
deriving DecidableEq, Repr

/-- Modelled from the spec: the Range constructor (core/range.ts is not
under src) swaps the endpoints when given start after end, keeping the
spec invariant start less-or-equal end in document order. -/
def mkRange (sl sc el ec : Int) : Rng :=
  if sl > el ∨ (sl = el ∧ sc > ec) then ⟨el, ec, sl, sc⟩ else ⟨sl, sc, el, ec⟩

namespace TextBuffer

/-- Number of lines in the buffer (ITextBuffer.getLineCount). -/
def lineCount (b : TextBuffer) : Nat :=
  b.lines.length

/-- The content of 1-based line l; empty when out of range. -/
def lineAt (b : TextBuffer) (l : Int) : Line :=
  if 1 ≤ l then b.lines.getD (l.toNat - 1) [] else []

/-- ITextBuffer.getLineLength for a 1-based line number. -/
def getLineLength (b : TextBuffer) (l : Int) : Nat :=
  (b.lineAt l).length

/-- Maximum column of a line: line length plus one (TextModel.getLineMaxColumn). -/
def getLineMaxColumn (b : TextBuffer) (l : Int) : Nat :=
  b.getLineLength l + 1

/-- ITextBuffer.getLineCharCode: the code unit at 0-based index idx of
line l; out-of-range reads give 0 (JavaScript charCodeAt yields NaN there,
which the surrogate tests treat as not-a-surrogate). -/
def getLineCharCode (b : TextBuffer) (l : Int) (idx : Int) : Nat :=
  if 0 ≤ idx then (b.lineAt l).getD idx.toNat 0 else 0

end TextBuffer

/-- StringOffsetValidationType of the source. -/
inductive ValidationType where
  | Relaxed
  | SurrogatePairs
deriving DecidableEq, Repr

/-- JavaScript n | 0 on an integer: wrap into the signed 32-bit range. -/
def toInt32 (i : Int) : Int :=
  (i + 2 ^ 31) % 2 ^ 32 - 2 ^ 31

/-- TextModel._validatePosition: clamp a raw (line, column) to buffer
bounds; under SurrogatePairs validation a column landing after a high
surrogate is moved back by one. -/
def validatePos (b : TextBuffer) (line col : Int) (vt : ValidationType) : Pos :=
  if line < 1 then ⟨1, 1⟩
  else if line > (b.lineCount : Int) then
    ⟨(b.lineCount : Int), (b.getLineMaxColumn (b.lineCount : Int) : Int)⟩
  else if col ≤ 1 then ⟨line, 1⟩
  else if col ≥ (b.getLineMaxColumn line : Int) then ⟨line, (b.getLineMaxColumn line : Int)⟩
  else if vt = .SurrogatePairs ∧ isHighSurrogate (b.getLineCharCode line (col - 2)) then
    ⟨line, col - 1⟩
  else ⟨line, col⟩

/-- TextModel._isValidPosition. -/
def isValidPos (b : TextBuffer) (line col : Int) (vt : ValidationType) : Bool :=
  if line < 1 ∨ col < 1 then false
  else if toInt32 line ≠ line ∨ toInt32 col ≠ col then false
  else if line > (b.lineCount : Int) then false
  else if col = 1 then true
  else if col > (b.getLineMaxColumn line : Int) then false
  else if vt = .SurrogatePairs then !isHighSurrogate (b.getLineCharCode line (col - 2))
  else true

/-- TextModel.validatePosition without the disposal guard: the fast path
returns the input unchanged when already valid, otherwise the input is
corrected.  The instanceof-Position fast-path guard of the source is
always satisfied by our Pos values. -/
def validatePositionCore (b : TextBuffer) (p : Pos) : Pos :=
  if isValidPos b p.lineNumber p.column .SurrogatePairs then p
  else validatePos b p.lineNumber p.column .SurrogatePairs

/-- The start-endpoint surrogate test of validateRange and _isValidRange:
the code unit before the start column is a high surrogate. -/
def vrFlagStart (b : TextBuffer) (sl sc : Int) : Bool :=
  isHighSurrogate (if sc > 1 then b.getLineCharCode sl (sc - 2) else 0)

/-- The end-endpoint surrogate test of validateRange and _isValidRange;
unlike the start test it is suppressed at the line-end column. -/
def vrFlagEnd (b : TextBuffer) (el ec : Int) : Bool :=
  isHighSurrogate
    (if ec > 1 ∧ ec ≤ (b.getLineLength el : Int) then b.getLineCharCode el (ec - 2) else 0)

/-- TextModel._isValidRange. -/
def isValidRange (b : TextBuffer) (r : Rng) (vt : ValidationType) : Bool :=
  if !isValidPos b r.startLineNumber r.startColumn .Relaxed then false
  else if !isValidPos b r.endLineNumber r.endColumn .Relaxed then false
  else if vt = .SurrogatePairs then
    !vrFlagStart b r.startLineNumber r.startColumn && !vrFlagEnd b r.endLineNumber r.endColumn
  else true

/-- The endpoints of r are in document order (start not after end); the
Range class of the source establishes this in its constructor. -/
def rngOrdered (r : Rng) : Bool :=
  !(r.startLineNumber > r.endLineNumber ∨
    (r.startLineNumber = r.endLineNumber ∧ r.startColumn > r.endColumn))

/-- The surrogate-correction tail of validateRange on the two relaxed
validated endpoints: keep, shift a collapsed range, or expand the
flagged ends. -/
def validateRangeSlow (b : TextBuffer) (s e : Pos) : Rng :=
  if !vrFlagStart b s.lineNumber s.column && !vrFlagEnd b e.lineNumber e.column then
    mkRange s.lineNumber s.column e.lineNumber e.column
  else if s.lineNumber = e.lineNumber ∧ s.column = e.column then
    mkRange s.lineNumber (s.column - 1) e.lineNumber (e.column - 1)
  else if vrFlagStart b s.lineNumber s.column && vrFlagEnd b e.lineNumber e.column then
    mkRange s.lineNumber (s.column - 1) e.lineNumber (e.column + 1)
  else if vrFlagStart b s.lineNumber s.column then
    mkRange s.lineNumber (s.column - 1) e.lineNumber e.column
  else mkRange s.lineNumber s.column e.lineNumber (e.column + 1)

/-- TextModel.validateRange without the disposal guard.  The source takes
its fast path only for instances of the Range class, which are always in
document order; for an ordered valid plain range the slow path computes
the same value, so gating the fast path on order plus validity yields the
source's result for every input kind. -/
def validateRangeCore (b : TextBuffer) (r : Rng) : Rng :=
  if rngOrdered r && isValidRange b r .SurrogatePairs then r
  else
    validateRangeSlow b (validatePos b r.startLineNumber r.startColumn .Relaxed)
      (validatePos b r.endLineNumber r.endColumn .Relaxed)

/-- TextModel._validateRangeRelaxedNoAllocations: clamp each endpoint to
buffer bounds without surrogate correction.  The per-endpoint clamping
inlined in the source coincides with _validatePosition under Relaxed
validation. -/
def validateRangeRelaxed (b : TextBuffer) (r : Rng) : Rng :=
  mkRange (validatePos b r.startLineNumber r.startColumn .Relaxed).lineNumber
    (validatePos b r.startLineNumber r.startColumn .Relaxed).column
    (validatePos b r.endLineNumber r.endColumn .Relaxed).lineNumber
    (validatePos b r.endLineNumber r.endColumn .Relaxed).column

/-- A buffer position (line, col) sits between the two halves of a UTF-16
surrogate pair when the unit before it is a high surrogate and the unit
at it is a low surrogate. -/
def insidePair (b : TextBuffer) (line col : Int) : Bool :=
  isHighSurrogate (b.getLineCharCode line (col - 2)) &&
    isLowSurrogate (b.getLineCharCode line (col - 1))

/-- The buffer text is well-formed UTF-16: every high surrogate is
immediately followed by a low surrogate on the same line. -/
def wfText (b : TextBuffer) : Bool :=
  b.lines.all fun ln =>
    (List.range ln.length).all fun i =>
      !isHighSurrogate (ln.getD i 0) ||
        (decide (i + 1 < ln.length) && isLowSurrogate (ln.getD (i + 1) 0))

/-- Sum of line lengths, counting one end-of-line unit after each line. -/
def sumLens (ls : List Line) : Nat :=
  ls.foldr (fun ln acc => ln.length + 1 + acc) 0

namespace TextBuffer

/-- Modelled from the spec: total length of the flattened document text
(line contents joined by one end-of-line unit). -/
def getLength (b : TextBuffer) : Nat :=
  sumLens b.lines - 1

/-- Modelled from the spec: the zero-based offset of 1-based (l, c) in the
flattened text, the prefix sum of earlier line spans plus the column. -/
def offsetAtCore (b : TextBuffer) (l c : Nat) : Nat :=
  sumLens (b.lines.take (l - 1)) + (c - 1)

/-- ITextBuffer.getOffsetAt on a position already validated in-bounds. -/
def getOffsetAt (b : TextBuffer) (l c : Int) : Nat :=
  b.offsetAtCore l.toNat c.toNat

end TextBuffer

/-- Modelled from the spec: walk the lines to locate the line containing
an offset, clamping into the final line. -/
def posAtAux : Nat → Nat → List Line → Pos
  | l, _, [] => ⟨l, 1⟩
  | l, off, ln :: rest =>
    if off ≤ ln.length ∨ rest = [] then ⟨l, (min off ln.length : Nat) + 1⟩
    else posAtAux (l + 1) (off - (ln.length + 1)) rest

namespace TextBuffer

/-- Modelled from the spec: ITextBuffer.getPositionAt for a clamped offset. -/
def positionAtCore (b : TextBuffer) (off : Nat) : Pos :=
  posAtAux 1 off b.lines

/-- The full document text: lines joined by one end-of-line unit (10). -/
def getValueAll (b : TextBuffer) : Str :=
  (b.lines.intersperse [10]).flatten

end TextBuffer

/-- Split UTF-16 text at end-of-line units (10) into lines; always yields
at least one line.  Modelled from the spec: buffer construction from a
complete string. -/
def splitLines (t : Str) : List Line :=
  t.foldr
    (fun c acc =>
      if c = 10 then [] :: acc
      else
        match acc with
        | [] => [[c]]
        | l :: ls => (c :: l) :: ls)
    [[]]

/-- Build a buffer from a complete string (createTextBuffer). -/
def bufferOfString (t : Str) : TextBuffer :=
  ⟨splitLines t⟩

/-- Glue the replacement lines between the kept head of the start line and
the kept tail of the end line. -/
def spliceInsert (head tail : Line) : List Line → List Line
  | [] => [head ++ tail]
  | [x] => [head ++ x ++ tail]
  | x :: y :: xs => (head ++ x) :: spliceInsert [] tail (y :: xs)

/-- Modelled from the spec: replace the text under a validated range with
the given replacement text, splicing at line granularity. -/
def TextBuffer.spliceRange (b : TextBuffer) (r : Rng) (t : Str) : TextBuffer :=
  let sl := r.startLineNumber.toNat
  let el := r.endLineNumber.toNat
  let head := (b.lineAt r.startLineNumber).take (r.startColumn.toNat - 1)
  let tail := (b.lineAt r.endLineNumber).drop (r.endColumn.toNat - 1)
  ⟨b.lines.take (sl - 1) ++ spliceInsert head tail (splitLines t) ++ b.lines.drop el⟩

/-- A single edit operation as accepted by applyEdits: range, optional
replacement text (absence is deletion), force-move-markers flag. -/
structure EditOperation where
  range : Rng
  text : Option Str
  forceMoveMarkers : Bool
deriving DecidableEq, Repr

/-- One entry of the flat change list of a content-changed event. -/
structure ContentChange where
  range : Rng
  rangeOffset : Nat
  rangeLength : Nat
  text : Str
  forceMoveMarkers : Bool
deriving DecidableEq, Repr

/-- The content-changed event observed by listeners.  Modelled from the
spec: the event classes (textModelEvents.ts is not under src) carry a
monotonically increasing version id and an isFlush flag along with the
flat change list. -/
structure ContentEvent where
  changes : List ContentChange
  versionId : Nat
  isFlush : Bool
deriving DecidableEq, Repr

/-- Modelled from the spec: InternalModelContentChangeEvent.merge joins
the change lists of two batched events; the merged event keeps the later
version id and flushes when either part flushed. -/
def mergeEv (a b : ContentEvent) : ContentEvent :=
  ⟨a.changes ++ b.changes, b.versionId, a.isFlush || b.isFlush⟩

/-- State of DidChangeContentEmitter: a reference count of open deferred
scopes and the merged pending event. -/
structure EmitterState where
  deferredCnt : Int
  deferredEvent : Option ContentEvent
deriving DecidableEq, Repr

namespace EmitterState

/-- DidChangeContentEmitter.beginDeferredEmit. -/
def beginDeferred (st : EmitterState) : EmitterState :=
  { st with deferredCnt := st.deferredCnt + 1 }

/-- DidChangeContentEmitter.endDeferredEmit: when the outermost scope
closes, the pending merged event (if any) is emitted. -/
def endDeferred (st : EmitterState) : EmitterState × List ContentEvent :=
  let c := st.deferredCnt - 1
  if c = 0 then
    match st.deferredEvent with
    | some e => (⟨c, none⟩, [e])
    | none => (⟨c, none⟩, [])
  else (⟨c, st.deferredEvent⟩, [])

/-- DidChangeContentEmitter.fire: merge into the pending event while a
deferred scope is open, emit immediately otherwise. -/
def fire (st : EmitterState) (e : ContentEvent) : EmitterState × List ContentEvent :=
  if st.deferredCnt > 0 then
    match st.deferredEvent with
    | some de => (⟨st.deferredCnt, some (mergeEv de e)⟩, [])
    | none => (⟨st.deferredCnt, some e⟩, [])
  else (st, [e])

end EmitterState

/-- Decoration options; the stickiness mode plus an opaque payload
standing for the uninterpreted rendering hints. -/
structure DecOptions where
  stickiness : Nat
  payload : Nat
deriving DecidableEq, Repr

/-- A decoration node of the interval tree: owner partition tag, cached
absolute offsets, cached line/column range, options and version stamp. -/
structure IntervalNode where
  ownerId : Nat
  startOff : Nat
  endOff : Nat
  range : Rng
  options : DecOptions
  cachedVersionId : Nat
deriving DecidableEq, Repr

/-- The decoration store: the id counter, the id-to-node map
(the _decorations object) and the set of node ids held by the interval
tree, the latter modelled as the list of contained ids. -/
structure DecoState where
  lastDecorationId : Nat
  decorations : List (Nat × IntervalNode)
  tree : List Nat
deriving DecidableEq, Repr

/-- Lookup in the _decorations map. -/
def lookupDec : List (Nat × IntervalNode) → Nat → Option IntervalNode
  | [], _ => none
  | p :: rest, k => if p.1 = k then some p.2 else lookupDec rest k

/-- Remove a key from the _decorations map. -/
def eraseDec (m : List (Nat × IntervalNode)) (k : Nat) : List (Nat × IntervalNode) :=
  m.filter (fun p => p.1 ≠ k)

/-- Set a key in the _decorations map. -/
def setDec (m : List (Nat × IntervalNode)) (k : Nat) (v : IntervalNode) :
    List (Nat × IntervalNode) :=
  (k, v) :: eraseDec m k

/-- IntervalTree.delete, on the contained-id view of the tree. -/
def eraseTree (t : List Nat) (k : Nat) : List Nat :=
  t.filter (fun x => x ≠ k)

/-- A decoration descriptor passed to deltaDecorations. -/
structure DeltaDeco where
  range : Rng
  options : DecOptions
deriving DecidableEq, Repr

/-- The node value written by step (4) of _deltaDecorationsImpl: range
validated relaxed, offsets resolved against the buffer, options
normalized, version stamp reset. -/
def newNodeFor (b : TextBuffer) (versionId owner : Nat) (d : DeltaDeco) : IntervalNode :=
  let range := validateRangeRelaxed b d.range
  let startOffset := b.getOffsetAt range.startLineNumber range.startColumn
  let endOffset := b.getOffsetAt range.endLineNumber range.endColumn
  ⟨owner, startOffset, endOffset, range, d.options, versionId⟩

/-- Steps (3) and (4) of _deltaDecorationsImpl when no removed node is at
hand: allocate the next decoration id, store the initialized node, insert
it into the tree. -/
def freshState (b : TextBuffer) (versionId owner : Nat) (d : DeltaDeco)
    (st : DecoState) : DecoState :=
  ⟨st.lastDecorationId + 1,
    setDec st.decorations (st.lastDecorationId + 1) (newNodeFor b versionId owner d),
    (st.lastDecorationId + 1) :: st.tree⟩

/-- Step (2) plus the surplus-old branch: the node leaves the tree and
the map. -/
def drainState (oldId : Nat) (st : DecoState) : DecoState :=
  ⟨st.lastDecorationId, eraseDec st.decorations oldId, eraseTree st.tree oldId⟩

/-- Step (2) plus step (4) on a reused node: the node leaves the tree,
is reinitialized from the descriptor, and is reinserted. -/
def reuseState (b : TextBuffer) (versionId owner : Nat) (oldId : Nat) (d : DeltaDeco)
    (st : DecoState) : DecoState :=
  ⟨st.lastDecorationId, setDec st.decorations oldId (newNodeFor b versionId owner d),
    oldId :: eraseTree st.tree oldId⟩

/-- The loop of TextModel._deltaDecorationsImpl: walk the old ids and the
new descriptors in lockstep, reusing a removed node for the next new
descriptor when both sides are live, creating fresh ids once the old ids
are exhausted, and dropping surplus old nodes once the descriptors are
exhausted.  Old ids naming no live decoration are skipped.  The fuel
argument only makes the recursion structural; one unit is consumed per
loop iteration, so any fuel of at least the combined input length
reproduces the source loop exactly. -/
def deltaLoopF (b : TextBuffer) (versionId owner : Nat) :
    Nat → List Nat → List DeltaDeco → DecoState → List Nat × DecoState
  | 0, _, _, st => ([], st)
  | _ + 1, [], [], st => ([], st)
  | fuel + 1, [], d :: ds, st =>
    let res := deltaLoopF b versionId owner fuel [] ds (freshState b versionId owner d st)
    ((st.lastDecorationId + 1) :: res.1, res.2)
  | fuel + 1, oldId :: oldRest, newDecos, st =>
    match lookupDec st.decorations oldId with
    | none => deltaLoopF b versionId owner fuel oldRest newDecos st
    | some _ =>
      match newDecos with
      | [] => deltaLoopF b versionId owner fuel oldRest [] (drainState oldId st)
      | d :: ds =>
        let res := deltaLoopF b versionId owner fuel oldRest ds
          (reuseState b versionId owner oldId d st)
        (oldId :: res.1, res.2)

/-- The source loop, run with sufficient fuel. -/
def deltaLoop (b : TextBuffer) (versionId owner : Nat) (oldIds : List Nat)
    (newDecos : List DeltaDeco) (st : DecoState) : List Nat × DecoState :=
  deltaLoopF b versionId owner (oldIds.length + newDecos.length) oldIds newDecos st

/-- Whether an edit at a boundary makes the marker at that boundary move
forward with the inserted text, per stickiness; forceMoveMarkers
overrides.  Start boundaries move under never-grows and grows-only-after;
end boundaries move (grow) under always-grows and grows-only-after. -/
def startMoves (stickiness : Nat) (force : Bool) : Bool :=
  force || stickiness = 1 || stickiness = 3

/-- End-boundary counterpart of startMoves. -/
def endMoves (stickiness : Nat) (force : Bool) : Bool :=
  force || stickiness = 0 || stickiness = 3

/-- Modelled from the spec: reposition one absolute offset across the
replacement of [offset, offset+length) by newLength units.  Positions
before the edit are unaffected, positions after shift by the length
difference, positions inside the deleted region degenerate to the edit
start, and a position exactly at the edit start moves with the inserted
text only when its boundary mode says so. -/
def adjustMarker (offset length newLength : Nat) (moves : Bool) (x : Nat) : Nat :=
  if x < offset then x
  else if x = offset then (if moves then offset + newLength else offset)
  else if x < offset + length then offset
  else x - length + newLength

/-- Modelled from the spec: IntervalTree.acceptReplace on a single node. -/
def nodeAcceptReplace (offset length newLength : Nat) (force : Bool)
    (n : IntervalNode) : IntervalNode :=
  { n with
    startOff := adjustMarker offset length newLength (startMoves n.options.stickiness force) n.startOff
    endOff := adjustMarker offset length newLength (endMoves n.options.stickiness force) n.endOff }

/-- IntervalTree.acceptReplace over the whole store. -/
def DecoState.acceptReplace (st : DecoState) (offset length newLength : Nat)
    (force : Bool) : DecoState :=
  { st with
    decorations := st.decorations.map (fun p => (p.1, nodeAcceptReplace offset length newLength force p.2)) }

/-- Internal observable steps of the edit pipeline, used to state temporal
ordering properties of _doApplyEdits. -/
inductive TraceEv where
  | bufferCommit
  | decoFire
  | acceptReplace (offset length newLength : Nat) (force : Bool)
  | fireContent
deriving DecidableEq, Repr

/-- The whole mutable model: buffer, lifecycle flags, the version counter
shared by the buffer and its decoration store (modelled from the spec:
the counter fields are not under src), the decoration store and the
content-change emitter. -/
structure TextModel where
  buffer : TextBuffer
  isDisposed : Bool
  isDisposing : Bool
  versionId : Nat
  deco : DecoState
  emitter : EmitterState
deriving DecidableEq, Repr

/-- The error raised by TextModel._assertNotDisposed. -/
def disposedMsg : String := "Model is disposed!"

namespace TextModel

/-- Create a model over initial text (the constructor's buffer setup). -/
def create (t : Str) : TextModel :=
  ⟨bufferOfString t, false, false, 1, ⟨0, [], []⟩, ⟨0, none⟩⟩

/-- TextModel.dispose: marks the model disposed and swaps in an empty
buffer; decorations are not cleared. -/
def dispose (m : TextModel) : TextModel :=
  { m with isDisposed := true, isDisposing := false, buffer := ⟨[[]]⟩ }

/-- TextModel.validatePosition. -/
def validatePosition (m : TextModel) (p : Pos) : Except String Pos :=
  if m.isDisposed then .error disposedMsg
  else .ok (validatePositionCore m.buffer p)

/-- TextModel.validateRange. -/
def validateRange (m : TextModel) (r : Rng) : Except String Rng :=
  if m.isDisposed then .error disposedMsg
  else .ok (validateRangeCore m.buffer r)

/-- TextModel.getOffsetAt: validate relaxed, then resolve in the buffer. -/
def getOffsetAt (m : TextModel) (p : Pos) : Except String Nat :=
  if m.isDisposed then .error disposedMsg
  else
    let q := validatePos m.buffer p.lineNumber p.column .Relaxed
    .ok (m.buffer.getOffsetAt q.lineNumber q.column)

/-- TextModel.getPositionAt: clamp the offset into [0, length], then
resolve in the buffer. -/
def getPositionAt (m : TextModel) (rawOffset : Int) : Except String Pos :=
  if m.isDisposed then .error disposedMsg
  else .ok (m.buffer.positionAtCore (min (m.buffer.getLength : Int) (max 0 rawOffset)).toNat)

/-- TextModel.getDecorationOptions: no disposal guard in the source;
returns the options of a live decoration id. -/
def getDecorationOptions (m : TextModel) (id : Nat) : Option DecOptions :=
  (lookupDec m.deco.decorations id).map (·.options)

/-- Modelled from the spec: IntervalTree.collectNodesFromOwner. -/
def ownedIds (m : TextModel) (owner : Nat) : List Nat :=
  m.deco.tree.filter fun id =>
    match lookupDec m.deco.decorations id with
    | some n => n.ownerId = owner
    | none => false

/-- TextModel.removeAllDecorationsWithOwnerId: silently returns on a
disposed model (no throw), otherwise removes the owner's nodes from the
tree and the map. -/
def removeAllDecorationsWithOwnerId (m : TextModel) (owner : Nat) : Except String TextModel :=
  if m.isDisposed then .ok m
  else
    let ids := m.ownedIds owner
    .ok { m with
      deco := ⟨m.deco.lastDecorationId,
        m.deco.decorations.filter (fun p => ¬p.1 ∈ ids),
        m.deco.tree.filter (fun id => ¬id ∈ ids)⟩ }

/-- TextModel.getAllDecorations (no disposal guard in the source):
all live tree nodes, filtered by owner unless owner is 0.  The tree
search is modelled from the spec. -/
def getAllDecorations (m : TextModel) (owner : Nat) : List (Nat × IntervalNode) :=
  (m.deco.tree.filterMap fun id => (lookupDec m.deco.decorations id).map (fun n => (id, n))).filter
    fun p => owner = 0 || p.2.ownerId = owner

/-- TextModel.deltaDecorations: remove the old set and add the new set in
one step.  The version stamp written into the nodes is the model's
current version (the source references the counter whose definition is
not under src; modelled from the spec). -/
def deltaDecorations (m : TextModel) (oldIds : List Nat) (newDecos : List DeltaDeco)
    (owner : Nat) : Except String (List Nat × TextModel) :=
  if m.isDisposed then .error disposedMsg
  else if oldIds = [] ∧ newDecos = [] then .ok ([], m)
  else
    let res := deltaLoop m.buffer m.versionId owner oldIds newDecos m.deco
    .ok (res.1, { m with deco := res.2 })

/-- The flat content change recorded for one validated operation, with
offsets resolved against the pre-edit buffer. -/
def mkChange (b : TextBuffer) (op : EditOperation) : ContentChange :=
  let so := b.getOffsetAt op.range.startLineNumber op.range.startColumn
  let eo := b.getOffsetAt op.range.endLineNumber op.range.endColumn
  ⟨op.range, so, eo - so, op.text.getD [], op.forceMoveMarkers⟩

/-- Modelled from the spec: ITextBuffer.applyEdits applies the whole
validated batch atomically (splicing later operations first so earlier
coordinates stay valid) and reports one flat change per operation. -/
def bufferApplyEdits (b : TextBuffer) (ops : List EditOperation) :
    TextBuffer × List ContentChange :=
  let changes := ops.map (mkChange b)
  let b2 := ops.reverse.foldl (fun acc op => acc.spliceRange op.range (op.text.getD [])) b
  (b2, changes)

/-- TextModel._doApplyEdits: mutate the buffer, then for each change
notify the decoration emitter and reposition the decoration store, bump
the shared version counter (modelled from the spec: _increaseVersionId is
not under src) and fire one content-changed event; also yields the trace
of observable steps in source order. -/
def doApplyEdits (m : TextModel) (ops : List EditOperation) :
    TextModel × List ContentEvent × List TraceEv :=
  let bres := bufferApplyEdits m.buffer ops
  let m1 := { m with buffer := bres.1 }
  let changes := bres.2
  if changes = [] then (m1, [], [TraceEv.bufferCommit])
  else
    let decoTrace := changes.flatMap fun c =>
      [TraceEv.decoFire, TraceEv.acceptReplace c.rangeOffset c.rangeLength c.text.length c.forceMoveMarkers]
    let deco2 := changes.foldl
      (fun d c => d.acceptReplace c.rangeOffset c.rangeLength c.text.length c.forceMoveMarkers)
      m.deco
    let newVersion := m.versionId + 1
    let ev : ContentEvent := ⟨changes, newVersion, false⟩
    let fres := m.emitter.fire ev
    ({ m1 with versionId := newVersion, deco := deco2, emitter := fres.1 },
      fres.2,
      TraceEv.bufferCommit :: decoTrace ++ [TraceEv.fireContent])

/-- TextModel.applyEdits: open a deferred-emit scope, validate every
operation (validation asserts the model is live when there is at least
one operation), run _doApplyEdits, close the scope. -/
def applyEdits (m : TextModel) (rawOps : List EditOperation) :
    Except String (TextModel × List ContentEvent × List TraceEv) :=
  if m.isDisposed ∧ rawOps ≠ [] then .error disposedMsg
  else
    let em0 := m.emitter.beginDeferred
    let ops := rawOps.map fun op => { op with range := validateRangeCore m.buffer op.range }
    let dres := doApplyEdits { m with emitter := em0 } ops
    let m1 := dres.1
    let eres := m1.emitter.endDeferred
    .ok ({ m1 with emitter := eres.1 }, dres.2.1 ++ eres.2, dres.2.2)

/-- The trace of observable pipeline steps of one applyEdits call; empty
when the call fails. -/
def applyEditsTrace (m : TextModel) (rawOps : List EditOperation) : List TraceEv :=
  match m.applyEdits rawOps with
  | .ok r => r.2.2
  | .error _ => []

/-- TextModel.setValue and _setValueFromTextBuffer: a null value is a
no-op; otherwise the buffer is replaced wholesale, every decoration is
destroyed, and one flush content-changed event is fired (suppressed while
disposing). -/
def setValue (m : TextModel) (v : Option Str) : Except String (TextModel × List ContentEvent) :=
  if m.isDisposed then .error disposedMsg
  else
    match v with
    | none => .ok (m, [])
    | some s =>
      let oldLen := m.buffer.getLength
      let endLineNumber := m.buffer.lineCount
      let endColumn := m.buffer.getLineMaxColumn endLineNumber
      let b2 := bufferOfString s
      let newVersion := m.versionId + 1
      let ev : ContentEvent :=
        ⟨[⟨mkRange 1 1 endLineNumber endColumn, 0, oldLen, b2.getValueAll, false⟩],
          newVersion, true⟩
      let m1 : TextModel :=
        { m with buffer := b2, versionId := newVersion, deco := ⟨m.deco.lastDecorationId, [], []⟩ }
      if m.isDisposing then .ok (m1, [])
      else
        let fres := m1.emitter.fire ev
        .ok ({ m1 with emitter := fres.1 }, fres.2)

end TextModel

/-- Commands driving the content emitter, for stating batching. -/
inductive EmitCmd where
  | beginD
  | fireE (e : ContentEvent)
  | endD
deriving DecidableEq, Repr

/-- One emitter command: open a scope, fire, or close a scope. -/
def emitStep (st : EmitterState) : EmitCmd → EmitterState × List ContentEvent
  | .beginD => (st.beginDeferred, [])
  | .fireE e => st.fire e
  | .endD => st.endDeferred

/-- Run a command list against the emitter, collecting emitted events. -/
def emitRun : EmitterState → List EmitCmd → EmitterState × List ContentEvent
  | st, [] => (st, [])
  | st, c :: cs =>
    ((emitRun (emitStep st c).1 cs).1, (emitStep st c).2 ++ (emitRun (emitStep st c).1 cs).2)

/-- Command sequences that are properly nested relative to an already
open deferred scope: fires and balanced begin/end pairs. -/
inductive InnerSeq : List EmitCmd → Prop
  | nil : InnerSeq []
  | fire (e : ContentEvent) {l : List EmitCmd} : InnerSeq l → InnerSeq (EmitCmd.fireE e :: l)
  | nest {l₁ l₂ : List EmitCmd} : InnerSeq l₁ → InnerSeq l₂ →
      InnerSeq (EmitCmd.beginD :: l₁ ++ EmitCmd.endD :: l₂)

/-- The events fired inside a command list. -/
def firesOf : List EmitCmd → List ContentEvent
  | [] => []
  | .fireE e :: cs => e :: firesOf cs
  | _ :: cs => firesOf cs

/-- Fold a list of fired events into a pending merged event. -/
def foldPending (p : Option ContentEvent) (evs : List ContentEvent) : Option ContentEvent :=
  evs.foldl
    (fun a e =>
      match a with
      | none => some e
      | some x => some (mergeEv x e))
    p

/-- The claim's notion of a valid buffer position: line within the line
count and column within the line's maximum column. -/
def validPosB (b : TextBuffer) (p : Pos) : Bool :=
  1 ≤ p.lineNumber && p.lineNumber ≤ (b.lineCount : Int) &&
    1 ≤ p.column && p.column ≤ (b.getLineMaxColumn p.lineNumber : Int)

/-- Boolean recognizer of acceptReplace trace steps. -/
def isAcceptEv : TraceEv → Bool
  | .acceptReplace _ _ _ _ => true
  | _ => false

/-- A concrete live model over the two-line document ab / cd, used by
witnesses and counterexamples. -/
def sampleModel : TextModel :=
  TextModel.create [97, 98, 10, 99, 100]

/-- A concrete insertion of one unit at (1,2). -/
def sampleInsert : EditOperation :=
  ⟨⟨1, 2, 1, 2⟩, some [88], false⟩

/-- The normal form of validated positions: in-bounds, and under
well-formed text never sitting right after a high surrogate unless
clamped to a column limit. -/
def posNormal (b : TextBuffer) (q : Pos) : Prop :=
  1 ≤ q.lineNumber ∧ q.lineNumber ≤ (b.lineCount : Int) ∧ 1 ≤ q.column ∧
    q.column ≤ (b.getLineMaxColumn q.lineNumber : Int) ∧
    (1 < q.column → q.column < (b.getLineMaxColumn q.lineNumber : Int) →
      ¬isHighSurrogate (b.getLineCharCode q.lineNumber (q.column - 2)) = true)

/-- Neither endpoint of a range sits inside a surrogate pair. -/
def rngSafe (b : TextBuffer) (r : Rng) : Prop :=
  insidePair b r.startLineNumber r.startColumn = false ∧
    insidePair b r.endLineNumber r.endColumn = false

/-- Every decoration map key is within the issued id counter. -/
def decoWFKeys (st : DecoState) : Prop :=
  ∀ p ∈ st.decorations, p.1 ≤ st.lastDecorationId

/-- Every id the tree holds names a live decoration in the map. -/
def decoWFTree (st : DecoState) : Prop :=
  ∀ id ∈ st.tree, ∃ n, lookupDec st.decorations id = some n

/-! ## Basic facts about surrogates, lines and well-formed text -/

theorem high_not_low {c : Nat} (h : isHighSurrogate c = true) : isLowSurrogate c = false := by
  simp only [isHighSurrogate, Bool.and_eq_true, decide_eq_true_eq] at h
  simp only [isLowSurrogate, Bool.and_eq_false_iff, decide_eq_false_iff_not]
  omega

theorem lineCount_pos {b : TextBuffer} (hne : b.lines ≠ []) : 1 ≤ b.lineCount :=
  List.length_pos.mpr hne

theorem lineAt_eq_nil_or_mem (b : TextBuffer) (l : Int) :
    b.lineAt l = [] ∨ b.lineAt l ∈ b.lines := by
  unfold TextBuffer.lineAt
  split_ifs with h
  · rcases Nat.lt_or_ge (l.toNat - 1) b.lines.length with hlt | hge
    · right
      rw [List.getD_eq_getElem?_getD, List.getElem?_eq_getElem hlt]
      exact List.getElem_mem hlt
    · left
      rw [List.getD_eq_getElem?_getD, List.getElem?_eq_none hge]
      rfl
  · left; rfl

/-- In well-formed text, the unit after a high surrogate is a low
surrogate, across the char-code accessor. -/
theorem wf_step {b : TextBuffer} (hwf : wfText b = true) (l i : Int)
    (hh : isHighSurrogate (b.getLineCharCode l i) = true) :
    isLowSurrogate (b.getLineCharCode l (i + 1)) = true := by
  unfold TextBuffer.getLineCharCode at hh ⊢
  by_cases h0 : (0 : Int) ≤ i
  · rw [if_pos h0] at hh
    rw [if_pos (by omega : (0 : Int) ≤ i + 1)]
    have hlt : i.toNat < (b.lineAt l).length := by
      by_contra hge
      rw [List.getD_eq_getElem?_getD, List.getElem?_eq_none (by omega)] at hh
      simp only [Option.getD_none, isHighSurrogate] at hh
      exact absurd hh (by decide)
    have hmem : b.lineAt l ∈ b.lines := by
      rcases lineAt_eq_nil_or_mem b l with hnil | hmem
      · rw [hnil] at hlt; simp at hlt
      · exact hmem
    unfold wfText at hwf
    rw [List.all_eq_true] at hwf
    have h1 := hwf _ hmem
    rw [List.all_eq_true] at h1
    have h2 := h1 i.toNat (List.mem_range.mpr hlt)
    rw [hh] at h2
    simp only [Bool.not_true, Bool.false_or, Bool.and_eq_true, decide_eq_true_eq] at h2
    have : (i + 1).toNat = i.toNat + 1 := by omega
    rw [this]
    exact h2.2
  · rw [if_neg h0] at hh
    exact absurd hh (by decide)

/-! ## validatePosition: clamping bounds, fixpoint, idempotence -/

theorem validatePos_normal (b : TextBuffer) (hne : b.lines ≠ []) (hwf : wfText b = true)
    (line col : Int) :
    posNormal b (validatePos b line col .SurrogatePairs) := by
  have hlc : 1 ≤ b.lineCount := lineCount_pos hne
  unfold validatePos
  split_ifs with h1 h2 h3 h4 h5 <;> unfold posNormal TextBuffer.getLineMaxColumn <;> dsimp only
  · exact ⟨by omega, by omega, by omega, by omega, fun hc _ _ => by omega⟩
  · exact ⟨by omega, by omega, by omega, by omega, fun _ hc _ => by omega⟩
  · exact ⟨by omega, by omega, by omega, by omega, fun hc _ _ => by omega⟩
  · unfold TextBuffer.getLineMaxColumn at h4
    exact ⟨by omega, by omega, by omega, by omega, fun _ hc _ => by omega⟩
  · unfold TextBuffer.getLineMaxColumn at h4
    refine ⟨by omega, by omega, by omega, by omega, ?_⟩
    intro hg hl hhi
    have hlow := wf_step hwf line (col - 1 - 2) hhi
    have harith : col - 1 - 2 + 1 = col - 2 := by omega
    rw [harith] at hlow
    rw [high_not_low h5.2] at hlow
    exact absurd hlow (by decide)
  · unfold TextBuffer.getLineMaxColumn at h4
    refine ⟨by omega, by omega, by omega, by omega, ?_⟩
    intro hg hl hhi
    exact h5 ⟨rfl, hhi⟩

theorem validatePos_id_of_normal (b : TextBuffer) (q : Pos) (hq : posNormal b q) :
    validatePos b q.lineNumber q.column .SurrogatePairs = q := by
  obtain ⟨hl1, hl2, hc1, hc2, hsur⟩ := hq
  unfold validatePos
  split_ifs with h1 h2 h3 h4 h5
  · exact absurd h1 (by omega)
  · exact absurd h2 (by omega)
  · obtain ⟨ql, qc⟩ := q
    dsimp only at *
    simp only [Pos.mk.injEq, true_and]
    omega
  · obtain ⟨ql, qc⟩ := q
    dsimp only at *
    simp only [Pos.mk.injEq, true_and]
    omega
  · exact absurd h5.2 (hsur (by omega) (by omega))
  · rfl

theorem validatePos_fix (b : TextBuffer) (hne : b.lines ≠ []) (hwf : wfText b = true)
    (line col : Int) :
    validatePos b (validatePos b line col .SurrogatePairs).lineNumber
        (validatePos b line col .SurrogatePairs).column .SurrogatePairs =
      validatePos b line col .SurrogatePairs :=
  validatePos_id_of_normal b _ (validatePos_normal b hne hwf line col)

theorem validatePositionCore_idem (b : TextBuffer) (hne : b.lines ≠ [])
    (hwf : wfText b = true) (p : Pos) :
    validatePositionCore b (validatePositionCore b p) = validatePositionCore b p := by
  by_cases h : isValidPos b p.lineNumber p.column .SurrogatePairs = true
  · have h1 : validatePositionCore b p = p := by rw [validatePositionCore, if_pos h]
    simp only [h1]
  · have h1 : validatePositionCore b p = validatePos b p.lineNumber p.column .SurrogatePairs := by
      rw [validatePositionCore, if_neg h]
    rw [h1]
    by_cases h2 : isValidPos b (validatePos b p.lineNumber p.column .SurrogatePairs).lineNumber
        (validatePos b p.lineNumber p.column .SurrogatePairs).column .SurrogatePairs = true
    · rw [validatePositionCore, if_pos h2]
    · rw [validatePositionCore, if_neg h2]
      exact validatePos_fix b hne hwf p.lineNumber p.column

/-- C7 counterexample: on buffer text consisting of a lone high surrogate
followed by a genuine surrogate pair start (units D800 D800 61), the
position (1,3) validates to (1,2), which validates again to (1,1), so
validatePosition composed with itself differs from one application: the
claim fails as stated on buffers holding unpaired surrogates. -/
theorem c7_counterexample :
    (TextModel.create [0xD800, 0xD800, 0x61]).validatePosition ⟨1, 3⟩ =
        Except.ok (⟨1, 2⟩ : Pos) ∧
      (TextModel.create [0xD800, 0xD800, 0x61]).validatePosition ⟨1, 2⟩ =
        Except.ok (⟨1, 1⟩ : Pos) ∧
      ((TextModel.create [0xD800, 0xD800, 0x61]).validatePosition ⟨1, 3⟩).bind
          (TextModel.create [0xD800, 0xD800, 0x61]).validatePosition ≠
        (TextModel.create [0xD800, 0xD800, 0x61]).validatePosition ⟨1, 3⟩ := by
  refine ⟨rfl, rfl, ?_⟩
  show Except.ok (⟨1, 1⟩ : Pos) ≠ Except.ok (⟨1, 2⟩ : Pos)
  simp

theorem validatePosition_ok (m : TextModel) (hd : m.isDisposed = false) (p : Pos) :
    m.validatePosition p = Except.ok (validatePositionCore m.buffer p) := by
  unfold TextModel.validatePosition
  rw [hd, if_neg Bool.false_ne_true]

theorem validateRange_ok (m : TextModel) (hd : m.isDisposed = false) (r : Rng) :
    m.validateRange r = Except.ok (validateRangeCore m.buffer r) := by
  unfold TextModel.validateRange
  rw [hd, if_neg Bool.false_ne_true]

/-- C7 (amended): on a live model whose buffer text is well-formed UTF-16,
validatePosition is idempotent; out-of-bounds and surrogate-interior
positions are covered, but text containing unpaired surrogates is not. -/
theorem c7_validatePosition_idem (m : TextModel) (p : Pos) (hd : m.isDisposed = false)
    (hne : m.buffer.lines ≠ []) (hwf : wfText m.buffer = true) :
    (m.validatePosition p).bind m.validatePosition = m.validatePosition p := by
  rw [validatePosition_ok m hd p]
  show m.validatePosition (validatePositionCore m.buffer p) = _
  rw [validatePosition_ok m hd, validatePositionCore_idem m.buffer hne hwf p]

/-- C7 witness: the amended idempotence at a concrete live model. -/
theorem c7_witness :
    (TextModel.create [97, 10, 98]).isDisposed = false ∧
      (TextModel.create [97, 10, 98]).buffer.lines ≠ [] ∧
      wfText (TextModel.create [97, 10, 98]).buffer = true ∧
      ((TextModel.create [97, 10, 98]).validatePosition ⟨1, 5⟩).bind
          (TextModel.create [97, 10, 98]).validatePosition =
        (TextModel.create [97, 10, 98]).validatePosition ⟨1, 5⟩ :=
  ⟨rfl, by decide, by decide,
    c7_validatePosition_idem (TextModel.create [97, 10, 98]) ⟨1, 5⟩ rfl (by decide) (by decide)⟩

/-! ## validateRange: surrogate safety and collapsed ranges -/

theorem low_not_high {c : Nat} (h : isLowSurrogate c = true) : isHighSurrogate c = false := by
  simp only [isLowSurrogate, Bool.and_eq_true, decide_eq_true_eq] at h
  simp only [isHighSurrogate, Bool.and_eq_false_iff, decide_eq_false_iff_not]
  omega

/-- Generic Bool helpers for the flag case analyses. -/
theorem bool_eq_false {a : Bool} (h : ¬a = true) : a = false := by
  cases a <;> simp_all

theorem notand_flags {a b : Bool} (h : (!a && !b) = true) : a = false ∧ b = false := by
  cases a <;> cases b <;> simp_all

theorem or_of_notand {a b : Bool} (h : ¬((!a && !b) = true)) : a = true ∨ b = true := by
  cases a <;> cases b <;> simp_all

theorem second_false_of_notand {a b : Bool} (h : ¬((a && b) = true)) (ha : a = true) :
    b = false := by
  cases b <;> simp_all

theorem second_true_of_or {a b : Bool} (h : ¬((!a && !b) = true)) (ha : a = false) :
    b = true := by
  cases b <;> simp_all

/-- Bounds of Relaxed position validation. -/
theorem vpR_bounds (b : TextBuffer) (hne : b.lines ≠ []) (line col : Int) :
    1 ≤ (validatePos b line col .Relaxed).lineNumber ∧
      (validatePos b line col .Relaxed).lineNumber ≤ (b.lineCount : Int) ∧
      1 ≤ (validatePos b line col .Relaxed).column ∧
      (validatePos b line col .Relaxed).column ≤
        (b.getLineMaxColumn (validatePos b line col .Relaxed).lineNumber : Int) := by
  have hlc := lineCount_pos hne
  unfold validatePos
  split_ifs with h1 h2 h3 h4 h5 <;> unfold TextBuffer.getLineMaxColumn <;> dsimp only
  · exact ⟨by omega, by omega, by omega, by omega⟩
  · exact ⟨by omega, by omega, by omega, by omega⟩
  · exact ⟨by omega, by omega, by omega, by omega⟩
  · unfold TextBuffer.getLineMaxColumn at h4
    exact ⟨by omega, by omega, by omega, by omega⟩
  · exact absurd h5.1 (by decide)
  · unfold TextBuffer.getLineMaxColumn at h3 h4
    exact ⟨by omega, by omega, by omega, by omega⟩

theorem isValidPos_bounds (b : TextBuffer) (line col : Int) (vt : ValidationType)
    (h : isValidPos b line col vt = true) :
    1 ≤ line ∧ line ≤ (b.lineCount : Int) ∧ 1 ≤ col ∧
      col ≤ (b.getLineMaxColumn line : Int) := by
  unfold isValidPos at h
  split_ifs at h with h1 h2 h3 h4 h5 h6
  · exact ⟨by omega, by omega, by omega, by
      unfold TextBuffer.getLineMaxColumn; omega⟩
  · exact ⟨by omega, by omega, by omega, by omega⟩
  · exact ⟨by omega, by omega, by omega, by omega⟩

/-- Relaxed validation is the identity on positions _isValidPosition
accepts. -/
theorem vpR_id_of_valid (b : TextBuffer) (line col : Int)
    (h : isValidPos b line col .Relaxed = true) :
    validatePos b line col .Relaxed = ⟨line, col⟩ := by
  obtain ⟨h1, h2, h3, h4⟩ := isValidPos_bounds b line col .Relaxed h
  unfold validatePos
  split_ifs with g1 g2 g3 g4 g5
  · exact absurd g1 (by omega)
  · exact absurd g2 (by omega)
  · simp only [Pos.mk.injEq, true_and]; omega
  · simp only [Pos.mk.injEq, true_and]; omega
  · exact absurd g5.1 (by decide)
  · rfl

theorem flagStart_high {b : TextBuffer} {sl sc : Int} (h : vrFlagStart b sl sc = true) :
    1 < sc ∧ isHighSurrogate (b.getLineCharCode sl (sc - 2)) = true := by
  unfold vrFlagStart at h
  split_ifs at h with hc
  · exact ⟨hc, h⟩
  · exact absurd h (by decide)

theorem flagEnd_high {b : TextBuffer} {el ec : Int} (h : vrFlagEnd b el ec = true) :
    1 < ec ∧ ec ≤ (b.getLineLength el : Int) ∧
      isHighSurrogate (b.getLineCharCode el (ec - 2)) = true := by
  unfold vrFlagEnd at h
  split_ifs at h with hc
  · exact ⟨hc.1, hc.2, h⟩
  · exact absurd h (by decide)

theorem notInside_of_flagStart_false (b : TextBuffer) (sl sc : Int)
    (hf : vrFlagStart b sl sc = false) : insidePair b sl sc = false := by
  unfold vrFlagStart at hf
  unfold insidePair
  split_ifs at hf with hc
  · rw [hf, Bool.false_and]
  · have hneg : b.getLineCharCode sl (sc - 2) = 0 := by
      unfold TextBuffer.getLineCharCode
      rw [if_neg (by omega)]
    rw [hneg]
    simp [isHighSurrogate]

theorem notInside_of_flagEnd_false (b : TextBuffer) (el ec : Int)
    (hb : ec ≤ (b.getLineMaxColumn el : Int)) (hf : vrFlagEnd b el ec = false) :
    insidePair b el ec = false := by
  unfold vrFlagEnd at hf
  unfold insidePair
  split_ifs at hf with hc
  · rw [hf, Bool.false_and]
  · unfold TextBuffer.getLineMaxColumn at hb
    by_cases h1 : 1 < ec
    · -- suppressed because ec is the line-end column
      have hlen : ¬ec ≤ (b.getLineLength el : Int) := fun hcon => hc ⟨h1, hcon⟩
      have hoor : b.getLineCharCode el (ec - 1) = 0 := by
        unfold TextBuffer.getLineCharCode
        rw [if_pos (by omega)]
        unfold TextBuffer.getLineLength at hlen
        rw [List.getD_eq_getElem?_getD, List.getElem?_eq_none (by omega)]
        rfl
      rw [hoor]
      simp [isLowSurrogate]
    · have hneg : b.getLineCharCode el (ec - 2) = 0 := by
        unfold TextBuffer.getLineCharCode
        rw [if_neg (by omega)]
      rw [hneg]
      simp [isHighSurrogate]

/-- Shifting a flagged position one unit left cannot land it inside a
pair when the text is well-formed. -/
theorem notInside_shift {b : TextBuffer} (hwf : wfText b = true) (l c : Int)
    (hh : isHighSurrogate (b.getLineCharCode l (c - 2)) = true) :
    insidePair b l (c - 1) = false := by
  unfold insidePair
  by_cases hcase : isHighSurrogate (b.getLineCharCode l (c - 1 - 2)) = true
  · have hlow := wf_step hwf l (c - 1 - 2) hcase
    have harith : c - 1 - 2 + 1 = c - 2 := by omega
    rw [harith, high_not_low hh] at hlow
    exact absurd hlow (by decide)
  · rw [Bool.not_eq_true] at hcase
    rw [hcase, Bool.false_and]

/-- Growing a flagged end one unit right cannot land it inside a pair
when the text is well-formed. -/
theorem notInside_expand {b : TextBuffer} (hwf : wfText b = true) (l c : Int)
    (hh : isHighSurrogate (b.getLineCharCode l (c - 2)) = true) :
    insidePair b l (c + 1) = false := by
  unfold insidePair
  have hlow := wf_step hwf l (c - 2) hh
  have harith : c - 2 + 1 = c + 1 - 2 := by omega
  rw [harith] at hlow
  rw [low_not_high hlow, Bool.false_and]

theorem insidePair_flagStart {b : TextBuffer} {l c : Int} (h : insidePair b l c = true) :
    vrFlagStart b l c = true := by
  unfold insidePair at h
  rw [Bool.and_eq_true] at h
  unfold vrFlagStart
  by_cases hc : 1 < c
  · rw [if_pos hc]; exact h.1
  · have hneg : b.getLineCharCode l (c - 2) = 0 := by
      unfold TextBuffer.getLineCharCode
      rw [if_neg (by omega)]
    rw [hneg] at h
    exact absurd h.1 (by decide)

theorem mkRange_safe {b : TextBuffer} {a c : Int} {a2 c2 : Int}
    (h1 : insidePair b a a2 = false) (h2 : insidePair b c c2 = false) :
    rngSafe b (mkRange a a2 c c2) := by
  unfold mkRange
  split_ifs <;> exact ⟨by assumption, by assumption⟩

theorem mkRange_collapsed (a c : Int) : mkRange a c a c = ⟨a, c, a, c⟩ := by
  unfold mkRange
  rw [if_neg]
  rintro (h | ⟨_, h⟩) <;> omega

theorem isValidRange_parts {b : TextBuffer} {r : Rng}
    (h : isValidRange b r .SurrogatePairs = true) :
    isValidPos b r.startLineNumber r.startColumn .Relaxed = true ∧
      isValidPos b r.endLineNumber r.endColumn .Relaxed = true ∧
      vrFlagStart b r.startLineNumber r.startColumn = false ∧
      vrFlagEnd b r.endLineNumber r.endColumn = false := by
  unfold isValidRange at h
  split_ifs at h with h1 h2 h3
  · rw [Bool.not_eq_true'] at h1 h2
    rw [Bool.not_eq_false] at h1 h2
    obtain ⟨hfs, hfe⟩ := notand_flags h
    exact ⟨h1, h2, hfs, hfe⟩
  · exact absurd rfl h3

theorem validateRangeSlow_safe (b : TextBuffer) (hwf : wfText b = true) (s e : Pos)
    (hsb : 1 ≤ s.column ∧ s.column ≤ (b.getLineMaxColumn s.lineNumber : Int))
    (heb : 1 ≤ e.column ∧ e.column ≤ (b.getLineMaxColumn e.lineNumber : Int)) :
    rngSafe b (validateRangeSlow b s e) := by
  unfold validateRangeSlow
  split_ifs with h1 h2 h3 h4
  · obtain ⟨hfs, hfe⟩ := notand_flags h1
    exact mkRange_safe (notInside_of_flagStart_false b _ _ hfs)
      (notInside_of_flagEnd_false b _ _ heb.2 hfe)
  · -- collapsed: either flag forces a high surrogate before the column
    have hhigh : isHighSurrogate (b.getLineCharCode s.lineNumber (s.column - 2)) = true := by
      rcases or_of_notand h1 with hf | hf
      · exact (flagStart_high hf).2
      · have hrw := (flagEnd_high hf).2.2
        rw [← h2.1, ← h2.2] at hrw
        exact hrw
    refine mkRange_safe (notInside_shift hwf _ _ hhigh) ?_
    rw [← h2.1, ← h2.2]
    exact notInside_shift hwf _ _ hhigh
  · rw [Bool.and_eq_true] at h3
    exact mkRange_safe (notInside_shift hwf _ _ (flagStart_high h3.1).2)
      (notInside_expand hwf _ _ (flagEnd_high h3.2).2.2)
  · have hfe : vrFlagEnd b e.lineNumber e.column = false := second_false_of_notand h3 h4
    exact mkRange_safe (notInside_shift hwf _ _ (flagStart_high h4).2)
      (notInside_of_flagEnd_false b _ _ heb.2 hfe)
  · have hfs : vrFlagStart b s.lineNumber s.column = false := bool_eq_false h4
    have hfe : vrFlagEnd b e.lineNumber e.column = true := second_true_of_or h1 hfs
    exact mkRange_safe (notInside_of_flagStart_false b _ _ hfs)
      (notInside_expand hwf _ _ (flagEnd_high hfe).2.2)

theorem validateRangeCore_safe (b : TextBuffer) (hne : b.lines ≠ [])
    (hwf : wfText b = true) (r : Rng) : rngSafe b (validateRangeCore b r) := by
  unfold validateRangeCore
  split_ifs with h
  · rw [Bool.and_eq_true] at h
    obtain ⟨hvs, hve, hfs, hfe⟩ := isValidRange_parts h.2
    have hsb := isValidPos_bounds b _ _ _ hve
    exact ⟨notInside_of_flagStart_false b _ _ hfs,
      notInside_of_flagEnd_false b _ _ hsb.2.2.2 hfe⟩
  · have hs := vpR_bounds b hne r.startLineNumber r.startColumn
    have he := vpR_bounds b hne r.endLineNumber r.endColumn
    exact validateRangeSlow_safe b hwf _ _ ⟨hs.2.2.1, hs.2.2.2⟩ ⟨he.2.2.1, he.2.2.2⟩

/-- C5 counterexample: on buffer text with a lone high surrogate directly
before a genuine pair (units D800 D800 DC00), validateRange of (1,1)-(1,2)
expands the end to column 3, which sits exactly between the pair's high
and low halves: the claim fails as stated on such malformed text. -/
theorem c5_counterexample :
    (TextModel.create [0xD800, 0xD800, 0xDC00]).validateRange ⟨1, 1, 1, 2⟩ =
        Except.ok (⟨1, 1, 1, 3⟩ : Rng) ∧
      insidePair (TextModel.create [0xD800, 0xD800, 0xDC00]).buffer 1 3 = true := by
  exact ⟨rfl, by decide⟩

/-- C5 (amended): on a live model whose buffer text is well-formed UTF-16,
no endpoint of a validated range sits between the halves of a surrogate
pair. -/
theorem c5_validateRange_surrogate_safe (m : TextModel) (r : Rng)
    (hd : m.isDisposed = false) (hne : m.buffer.lines ≠ [])
    (hwf : wfText m.buffer = true) :
    ∃ r', m.validateRange r = Except.ok r' ∧
      insidePair m.buffer r'.startLineNumber r'.startColumn = false ∧
      insidePair m.buffer r'.endLineNumber r'.endColumn = false := by
  refine ⟨validateRangeCore m.buffer r, validateRange_ok m hd r, ?_⟩
  exact validateRangeCore_safe m.buffer hne hwf r

/-- C5 witness: surrogate safety at a concrete model holding a genuine
surrogate pair, validating a range that cuts the pair. -/
theorem c5_witness :
    (TextModel.create [97, 0xD800, 0xDC00, 98]).isDisposed = false ∧
      (TextModel.create [97, 0xD800, 0xDC00, 98]).buffer.lines ≠ [] ∧
      wfText (TextModel.create [97, 0xD800, 0xDC00, 98]).buffer = true ∧
      ∃ r', (TextModel.create [97, 0xD800, 0xDC00, 98]).validateRange ⟨1, 3, 1, 3⟩ =
          Except.ok r' ∧
        insidePair (TextModel.create [97, 0xD800, 0xDC00, 98]).buffer
            r'.startLineNumber r'.startColumn = false ∧
        insidePair (TextModel.create [97, 0xD800, 0xDC00, 98]).buffer
            r'.endLineNumber r'.endColumn = false :=
  ⟨rfl, by decide, by decide,
    c5_validateRange_surrogate_safe (TextModel.create [97, 0xD800, 0xDC00, 98])
      ⟨1, 3, 1, 3⟩ rfl (by decide) (by decide)⟩

/-- C8: validateRange of a collapsed input range is collapsed, and when
the clamped position sits inside a surrogate pair both endpoints are
shifted left by exactly one column. -/
theorem c8_collapsed_range (m : TextModel) (r : Rng) (hd : m.isDisposed = false)
    (hl : r.startLineNumber = r.endLineNumber) (hc : r.startColumn = r.endColumn) :
    ∃ r', m.validateRange r = Except.ok r' ∧
      r'.startLineNumber = r'.endLineNumber ∧ r'.startColumn = r'.endColumn ∧
      (insidePair m.buffer
          (validatePos m.buffer r.startLineNumber r.startColumn .Relaxed).lineNumber
          (validatePos m.buffer r.startLineNumber r.startColumn .Relaxed).column = true →
        r' = ⟨(validatePos m.buffer r.startLineNumber r.startColumn .Relaxed).lineNumber,
          (validatePos m.buffer r.startLineNumber r.startColumn .Relaxed).column - 1,
          (validatePos m.buffer r.startLineNumber r.startColumn .Relaxed).lineNumber,
          (validatePos m.buffer r.startLineNumber r.startColumn .Relaxed).column - 1⟩) := by
  refine ⟨validateRangeCore m.buffer r, validateRange_ok m hd r, ?_⟩
  unfold validateRangeCore
  split_ifs with hfast
  · rw [Bool.and_eq_true] at hfast
    obtain ⟨hvs, _, hfs, _⟩ := isValidRange_parts hfast.2
    refine ⟨hl, hc, ?_⟩
    intro hip
    rw [vpR_id_of_valid m.buffer _ _ hvs] at hip
    exact absurd (insidePair_flagStart hip) (by rw [hfs]; exact Bool.false_ne_true)
  · rw [← hl, ← hc]
    unfold validateRangeSlow
    split_ifs with g1 g2 g3 g4
    · rw [Bool.and_eq_true, Bool.not_eq_true', Bool.not_eq_true'] at g1
      rw [mkRange_collapsed]
      refine ⟨rfl, rfl, ?_⟩
      intro hip
      exact absurd (insidePair_flagStart hip) (by rw [g1.1]; exact Bool.false_ne_true)
    · rw [mkRange_collapsed]
      exact ⟨rfl, rfl, fun _ => rfl⟩
    · exact absurd ⟨rfl, rfl⟩ g2
    · exact absurd ⟨rfl, rfl⟩ g2
    · exact absurd ⟨rfl, rfl⟩ g2

/-- C8 witness: a collapsed range inside a pair is shifted, stays
collapsed, at a concrete model. -/
theorem c8_witness :
    ∃ r', (TextModel.create [97, 0xD800, 0xDC00, 98]).validateRange ⟨1, 3, 1, 3⟩ =
        Except.ok r' ∧
      r'.startLineNumber = r'.endLineNumber ∧ r'.startColumn = r'.endColumn ∧
      (insidePair (TextModel.create [97, 0xD800, 0xDC00, 98]).buffer
          (validatePos (TextModel.create [97, 0xD800, 0xDC00, 98]).buffer 1 3
            .Relaxed).lineNumber
          (validatePos (TextModel.create [97, 0xD800, 0xDC00, 98]).buffer 1 3
            .Relaxed).column = true →
        r' = ⟨(validatePos (TextModel.create [97, 0xD800, 0xDC00, 98]).buffer 1 3
            .Relaxed).lineNumber,
          (validatePos (TextModel.create [97, 0xD800, 0xDC00, 98]).buffer 1 3
            .Relaxed).column - 1,
          (validatePos (TextModel.create [97, 0xD800, 0xDC00, 98]).buffer 1 3
            .Relaxed).lineNumber,
          (validatePos (TextModel.create [97, 0xD800, 0xDC00, 98]).buffer 1 3
            .Relaxed).column - 1⟩) :=
  c8_collapsed_range (TextModel.create [97, 0xD800, 0xDC00, 98]) ⟨1, 3, 1, 3⟩ rfl rfl rfl

/-! ## Offset/position round trip -/

theorem sumLens_append (a c : List Line) : sumLens (a ++ c) = sumLens a + sumLens c := by
  induction a with
  | nil => simp [sumLens]
  | cons x xs ih => simp [sumLens, List.foldr_cons] at ih ⊢; omega

theorem sumLens_take_succ (ls : List Line) (k : Nat) (hk : k < ls.length) :
    sumLens (ls.take (k + 1)) = sumLens (ls.take k) + ((ls.getD k []).length + 1) := by
  induction ls generalizing k with
  | nil => simp at hk
  | cons x xs ih =>
    cases k with
    | zero => simp [sumLens]
    | succ n =>
      have hn : n < xs.length := by simpa using hk
      simp only [List.take_succ_cons, List.getD_eq_getElem?_getD, List.getElem?_cons_succ]
      rw [show sumLens (x :: xs.take (n + 1)) = x.length + 1 + sumLens (xs.take (n + 1)) from rfl]
      rw [show sumLens (x :: xs.take n) = x.length + 1 + sumLens (xs.take n) from rfl]
      have := ih n hn
      rw [List.getD_eq_getElem?_getD] at this
      omega

theorem sumLens_take_le (ls : List Line) (k : Nat) : sumLens (ls.take k) ≤ sumLens ls := by
  conv_rhs => rw [← List.take_append_drop k ls]
  rw [sumLens_append]
  omega

/-- The locate-by-offset walk inverts the prefix-sum offset computation
for any in-bounds line and column. -/
theorem posAtAux_correct (ls : List Line) (l0 k c : Nat) (hk : k < ls.length)
    (hc1 : 1 ≤ c) (hc2 : c ≤ (ls.getD k []).length + 1) :
    posAtAux l0 (sumLens (ls.take k) + (c - 1)) ls = ⟨(l0 : Int) + k, (c : Int)⟩ := by
  induction ls generalizing l0 k with
  | nil => simp at hk
  | cons ln rest ih =>
    cases k with
    | zero =>
      rw [List.getD_eq_getElem?_getD] at hc2
      simp only [List.getElem?_cons_zero, Option.getD_some] at hc2
      unfold posAtAux
      rw [List.take_zero, if_pos (Or.inl (by simp [sumLens]; omega))]
      simp only [sumLens, List.foldr_nil, Nat.zero_add]
      have hmin : min (c - 1) ln.length = c - 1 := by omega
      rw [hmin]
      simp only [Pos.mk.injEq]
      constructor
      · omega
      · omega
    | succ n =>
      have hn : n < rest.length := by simpa using hk
      have hrest : rest ≠ [] := by
        intro h; rw [h] at hn; simp at hn
      rw [List.getD_eq_getElem?_getD, List.getElem?_cons_succ] at hc2
      have hoff : sumLens ((ln :: rest).take (n + 1)) + (c - 1) =
          ln.length + 1 + (sumLens (rest.take n) + (c - 1)) := by
        rw [List.take_succ_cons]
        rw [show sumLens (ln :: rest.take n) = ln.length + 1 + sumLens (rest.take n) from rfl]
        omega
      rw [hoff]
      unfold posAtAux
      rw [if_neg (by push_neg; exact ⟨by omega, hrest⟩)]
      have harg : ln.length + 1 + (sumLens (rest.take n) + (c - 1)) - (ln.length + 1) =
          sumLens (rest.take n) + (c - 1) := by omega
      rw [harg]
      have := ih (l0 + 1) n hn (by rw [List.getD_eq_getElem?_getD]; exact hc2)
      rw [this]
      simp only [Pos.mk.injEq]
      refine ⟨by push_cast; omega, trivial⟩

theorem vpR_id_of_validPosB (b : TextBuffer) (p : Pos) (hv : validPosB b p = true) :
    validatePos b p.lineNumber p.column .Relaxed = p := by
  unfold validPosB at hv
  simp only [Bool.and_eq_true, decide_eq_true_eq] at hv
  obtain ⟨⟨⟨h1, h2⟩, h3⟩, h4⟩ := hv
  unfold validatePos
  split_ifs with g1 g2 g3 g4 g5
  · exact absurd g1 (by omega)
  · exact absurd g2 (by omega)
  · obtain ⟨pl, pc⟩ := p
    dsimp only at *
    simp only [Pos.mk.injEq, true_and]
    omega
  · obtain ⟨pl, pc⟩ := p
    dsimp only at *
    simp only [Pos.mk.injEq, true_and]
    omega
  · exact absurd g5.1 (by decide)
  · rfl

/-- The offset of a valid position is within the document length. -/
theorem offsetAtCore_le (b : TextBuffer) (p : Pos) (hv : validPosB b p = true) :
    b.offsetAtCore p.lineNumber.toNat p.column.toNat ≤ b.getLength := by
  unfold validPosB at hv
  simp only [Bool.and_eq_true, decide_eq_true_eq] at hv
  obtain ⟨⟨⟨h1, h2⟩, h3⟩, h4⟩ := hv
  unfold TextBuffer.getLineMaxColumn TextBuffer.getLineLength TextBuffer.lineAt at h4
  rw [if_pos h1] at h4
  unfold TextBuffer.lineCount at h2
  unfold TextBuffer.offsetAtCore TextBuffer.getLength
  set k := p.lineNumber.toNat - 1 with hk
  have hkl : k < b.lines.length := by omega
  have hstep := sumLens_take_succ b.lines k hkl
  have hle := sumLens_take_le b.lines (k + 1)
  have hcol : p.column.toNat - 1 ≤ (b.lines.getD k []).length := by omega
  omega

/-- C4: on a live model, getPositionAt inverts getOffsetAt on every valid
position of the current buffer. -/
theorem c4_offset_position_roundtrip (m : TextModel) (p : Pos)
    (hd : m.isDisposed = false) (hv : validPosB m.buffer p = true) :
    ∃ off : Nat, m.getOffsetAt p = Except.ok off ∧
      m.getPositionAt (off : Int) = Except.ok p := by
  have hvx := hv
  unfold validPosB at hvx
  simp only [Bool.and_eq_true, decide_eq_true_eq] at hvx
  obtain ⟨⟨⟨h1, h2⟩, h3⟩, h4⟩ := hvx
  refine ⟨m.buffer.offsetAtCore p.lineNumber.toNat p.column.toNat, ?_, ?_⟩
  · unfold TextModel.getOffsetAt
    rw [hd, if_neg Bool.false_ne_true, vpR_id_of_validPosB m.buffer p hv]
    rfl
  · unfold TextModel.getPositionAt
    rw [hd, if_neg Bool.false_ne_true]
    have hle := offsetAtCore_le m.buffer p hv
    have hclamp :
        (min (m.buffer.getLength : Int)
            (max 0 (m.buffer.offsetAtCore p.lineNumber.toNat p.column.toNat : Int))).toNat =
          m.buffer.offsetAtCore p.lineNumber.toNat p.column.toNat := by
      omega
    rw [hclamp]
    unfold TextBuffer.positionAtCore TextBuffer.offsetAtCore
    unfold TextBuffer.getLineMaxColumn TextBuffer.getLineLength TextBuffer.lineAt at h4
    rw [if_pos h1] at h4
    unfold TextBuffer.lineCount at h2
    have hkl : p.lineNumber.toNat - 1 < m.buffer.lines.length := by omega
    have := posAtAux_correct m.buffer.lines 1 (p.lineNumber.toNat - 1) p.column.toNat hkl
      (by omega) (by omega)
    rw [this]
    obtain ⟨pl, pc⟩ := p
    dsimp only at *
    simp only [Except.ok.injEq, Pos.mk.injEq]
    constructor
    · push_cast; omega
    · omega

/-- C4 witness: the round trip at a concrete model and position. -/
theorem c4_witness :
    (TextModel.create [97, 98, 10, 99, 100]).isDisposed = false ∧
      validPosB (TextModel.create [97, 98, 10, 99, 100]).buffer ⟨2, 2⟩ = true ∧
      ∃ off : Nat, (TextModel.create [97, 98, 10, 99, 100]).getOffsetAt ⟨2, 2⟩ =
          Except.ok off ∧
        (TextModel.create [97, 98, 10, 99, 100]).getPositionAt (off : Int) =
          Except.ok (⟨2, 2⟩ : Pos) :=
  ⟨rfl, by decide,
    c4_offset_position_roundtrip (TextModel.create [97, 98, 10, 99, 100]) ⟨2, 2⟩ rfl (by decide)⟩

/-! ## Deferred-emit batching -/

theorem emitRun_append (st : EmitterState) (l1 l2 : List EmitCmd) :
    emitRun st (l1 ++ l2) =
      ((emitRun (emitRun st l1).1 l2).1, (emitRun st l1).2 ++ (emitRun (emitRun st l1).1 l2).2) := by
  induction l1 generalizing st with
  | nil => simp [emitRun]
  | cons c cs ih =>
    simp only [List.cons_append, emitRun, List.append_eq]
    rw [ih]
    simp [List.append_assoc]

theorem firesOf_append (l1 l2 : List EmitCmd) :
    firesOf (l1 ++ l2) = firesOf l1 ++ firesOf l2 := by
  induction l1 with
  | nil => rfl
  | cons c cs ih =>
    cases c <;> simp [firesOf, ih]

theorem foldPending_append (p : Option ContentEvent) (e1 e2 : List ContentEvent) :
    foldPending p (e1 ++ e2) = foldPending (foldPending p e1) e2 := by
  unfold foldPending
  rw [List.foldl_append]

/-- Running a properly nested command sequence inside an open deferred
scope emits nothing and only accumulates the pending merged event. -/
theorem emitRun_inner {l : List EmitCmd} (hl : InnerSeq l) :
    ∀ (c : Int) (p : Option ContentEvent), 1 ≤ c →
      emitRun ⟨c, p⟩ l = (⟨c, foldPending p (firesOf l)⟩, []) := by
  induction hl with
  | nil => intro c p _; rfl
  | fire e hl ih =>
    intro c p hc
    simp only [emitRun, emitStep]
    have hfire : EmitterState.fire ⟨c, p⟩ e =
        (⟨c, some (match p with | none => e | some x => mergeEv x e)⟩, []) := by
      unfold EmitterState.fire
      rw [if_pos (show (⟨c, p⟩ : EmitterState).deferredCnt > 0 by dsimp only; omega)]
      cases p <;> rfl
    rw [hfire]
    rw [ih c _ hc]
    cases p <;> rfl
  | nest h1 h2 ih1 ih2 =>
    intro c p hc
    rename_i l1 l2
    show emitRun ⟨c, p⟩ (EmitCmd.beginD :: (l1 ++ EmitCmd.endD :: l2)) = _
    simp only [emitRun, emitStep]
    have hbegin : (⟨c, p⟩ : EmitterState).beginDeferred = ⟨c + 1, p⟩ := rfl
    rw [hbegin]
    rw [emitRun_append]
    rw [ih1 (c + 1) p (by omega)]
    have hend : emitRun ⟨c + 1, foldPending p (firesOf l1)⟩ (EmitCmd.endD :: l2) =
        (⟨c, foldPending (foldPending p (firesOf l1)) (firesOf l2)⟩, []) := by
      simp only [emitRun, emitStep]
      have hstep : EmitterState.endDeferred ⟨c + 1, foldPending p (firesOf l1)⟩ =
          (⟨c, foldPending p (firesOf l1)⟩, []) := by
        unfold EmitterState.endDeferred
        rw [if_neg (by dsimp only; omega)]
        dsimp only
        rw [Int.add_sub_cancel]
      rw [hstep]
      rw [ih2 c _ hc]
      rfl
    rw [hend]
    rw [firesOf_append]
    have hfend : firesOf (EmitCmd.endD :: l2) = firesOf l2 := rfl
    rw [hfend, foldPending_append]
    rfl

theorem foldPending_some_changes (evs : List ContentEvent) :
    ∀ x : ContentEvent, ∃ y, foldPending (some x) evs = some y ∧
      y.changes = x.changes ++ (evs.map (·.changes)).flatten := by
  induction evs with
  | nil => intro x; exact ⟨x, rfl, by simp⟩
  | cons e es ih =>
    intro x
    obtain ⟨y, hy, hch⟩ := ih (mergeEv x e)
    refine ⟨y, hy, ?_⟩
    rw [hch]
    simp [mergeEv]

/-- C9: while a deferred scope is open no content event is delivered, and
closing the outermost scope delivers exactly one event merging the
changes of all fires inside, or none when nothing was fired. -/
theorem c9_deferred_batching (l : List EmitCmd) (hl : InnerSeq l) :
    (emitRun ⟨0, none⟩ (EmitCmd.beginD :: l)).2 = [] ∧
      (firesOf l = [] →
        (emitRun ⟨0, none⟩ (EmitCmd.beginD :: l ++ [EmitCmd.endD])).2 = []) ∧
      (firesOf l ≠ [] →
        ∃ ev, (emitRun ⟨0, none⟩ (EmitCmd.beginD :: l ++ [EmitCmd.endD])).2 = [ev] ∧
          ev.changes = ((firesOf l).map (·.changes)).flatten) := by
  have hopen : emitRun ⟨0, none⟩ (EmitCmd.beginD :: l) =
      ((⟨1, foldPending none (firesOf l)⟩ : EmitterState), []) := by
    simp only [emitRun, emitStep]
    have hbegin : (⟨0, none⟩ : EmitterState).beginDeferred = ⟨1, none⟩ := rfl
    rw [hbegin, emitRun_inner hl 1 none (by omega)]
    rfl
  have hfull : emitRun ⟨0, none⟩ (EmitCmd.beginD :: l ++ [EmitCmd.endD]) =
      ((⟨0, none⟩ : EmitterState),
        match foldPending none (firesOf l) with
        | some e => [e]
        | none => []) := by
    rw [show EmitCmd.beginD :: l ++ [EmitCmd.endD] =
      (EmitCmd.beginD :: l) ++ [EmitCmd.endD] from rfl]
    rw [emitRun_append, hopen]
    have hlast : emitRun ⟨1, foldPending none (firesOf l)⟩ [EmitCmd.endD] =
        ((⟨0, none⟩ : EmitterState),
          match foldPending none (firesOf l) with
          | some e => [e]
          | none => []) := by
      simp only [emitRun, emitStep]
      unfold EmitterState.endDeferred
      rw [if_pos (show (1 : Int) - 1 = 0 by omega)]
      cases foldPending none (firesOf l) <;> rfl
    rw [hlast]
    rfl
  refine ⟨by rw [hopen], ?_, ?_⟩
  · intro hfires
    rw [hfull, hfires]
    rfl
  · intro hfires
    obtain ⟨e, es, hcons⟩ := List.exists_cons_of_ne_nil hfires
    have hfold : foldPending none (firesOf l) = foldPending (some e) es := by
      rw [hcons]; rfl
    obtain ⟨y, hy, hch⟩ := foldPending_some_changes es e
    refine ⟨y, ?_, ?_⟩
    · rw [hfull, hfold, hy]
    · rw [hch, hcons]
      simp

/-- C9 witness: a nested command sequence with three fires yields no
event until the outer scope closes, then exactly one merged event. -/
theorem c9_witness :
    (emitRun ⟨0, none⟩ (EmitCmd.beginD :: [EmitCmd.fireE ⟨[⟨⟨1, 1, 1, 1⟩, 0, 0, [88], false⟩], 2, false⟩,
        EmitCmd.beginD, EmitCmd.fireE ⟨[⟨⟨1, 1, 1, 1⟩, 1, 0, [89], false⟩], 3, false⟩, EmitCmd.endD,
        EmitCmd.fireE ⟨[⟨⟨1, 1, 1, 1⟩, 2, 0, [90], false⟩], 4, false⟩])).2 = [] ∧
      (firesOf [EmitCmd.fireE ⟨[⟨⟨1, 1, 1, 1⟩, 0, 0, [88], false⟩], 2, false⟩,
          EmitCmd.beginD, EmitCmd.fireE ⟨[⟨⟨1, 1, 1, 1⟩, 1, 0, [89], false⟩], 3, false⟩, EmitCmd.endD,
          EmitCmd.fireE ⟨[⟨⟨1, 1, 1, 1⟩, 2, 0, [90], false⟩], 4, false⟩] ≠ []) ∧
      ∃ ev, (emitRun ⟨0, none⟩ (EmitCmd.beginD :: [EmitCmd.fireE ⟨[⟨⟨1, 1, 1, 1⟩, 0, 0, [88], false⟩], 2, false⟩,
          EmitCmd.beginD, EmitCmd.fireE ⟨[⟨⟨1, 1, 1, 1⟩, 1, 0, [89], false⟩], 3, false⟩, EmitCmd.endD,
          EmitCmd.fireE ⟨[⟨⟨1, 1, 1, 1⟩, 2, 0, [90], false⟩], 4, false⟩] ++ [EmitCmd.endD])).2 = [ev] ∧
        ev.changes = ((firesOf [EmitCmd.fireE ⟨[⟨⟨1, 1, 1, 1⟩, 0, 0, [88], false⟩], 2, false⟩,
          EmitCmd.beginD, EmitCmd.fireE ⟨[⟨⟨1, 1, 1, 1⟩, 1, 0, [89], false⟩], 3, false⟩, EmitCmd.endD,
          EmitCmd.fireE ⟨[⟨⟨1, 1, 1, 1⟩, 2, 0, [90], false⟩], 4, false⟩]).map (·.changes)).flatten :=
  ⟨(c9_deferred_batching _ (InnerSeq.fire _ (InnerSeq.nest (InnerSeq.fire _ InnerSeq.nil)
      (InnerSeq.fire _ InnerSeq.nil)))).1,
    by decide,
    (c9_deferred_batching _ (InnerSeq.fire _ (InnerSeq.nest (InnerSeq.fire _ InnerSeq.nil)
      (InnerSeq.fire _ InnerSeq.nil)))).2.2 (by decide)⟩

/-! ## Version counter and edit pipeline -/

/-- The full computation of applyEdits on a live model with an idle
emitter: exactly one content event is fired, stamped with the bumped
version. -/
theorem applyEdits_spec (m : TextModel) (rawOps : List EditOperation)
    (hd : m.isDisposed = false) (hem : m.emitter = ⟨0, none⟩) (hne : rawOps ≠ []) :
    ∃ m' tr,
      m.applyEdits rawOps = .ok (m', [⟨(rawOps.map fun op =>
          TextModel.mkChange m.buffer { op with range := validateRangeCore m.buffer op.range }),
        m.versionId + 1, false⟩], tr) ∧
      m'.versionId = m.versionId + 1 ∧ m'.isDisposed = false ∧ m'.isDisposing = m.isDisposing ∧
      m'.emitter = ⟨0, none⟩ := by
  unfold TextModel.applyEdits
  rw [if_neg (by simp [hd])]
  unfold TextModel.doApplyEdits TextModel.bufferApplyEdits
  simp only [hem]
  have hchanges : ((rawOps.map fun op => { op with range := validateRangeCore m.buffer op.range }).map
      (TextModel.mkChange m.buffer)) ≠ [] := by
    simp only [ne_eq, List.map_eq_nil_iff]
    exact hne
  rw [if_neg hchanges]
  simp only [List.map_map]
  refine ⟨_, _, rfl, rfl, hd, rfl, rfl⟩

/-- C1: every mutating applyEdits call on a live model increments the
shared version counter exactly once, the emitted content event carries
the new version, and versions carried by successive edits strictly
increase. -/
theorem c1_version_monotone (m : TextModel) (rawOps : List EditOperation)
    (hd : m.isDisposed = false) (hem : m.emitter = ⟨0, none⟩) (hne : rawOps ≠ []) :
    ∃ m' e tr, m.applyEdits rawOps = .ok (m', [e], tr) ∧
      m'.versionId = m.versionId + 1 ∧ e.versionId = m'.versionId ∧
      m.versionId < e.versionId ∧
      ∀ rawOps₂ m₂ e₂ tr₂, rawOps₂ ≠ [] →
        m'.applyEdits rawOps₂ = .ok (m₂, [e₂], tr₂) → e.versionId < e₂.versionId := by
  obtain ⟨m', tr, heq, hv, hd', hdp', hem'⟩ := applyEdits_spec m rawOps hd hem hne
  refine ⟨m', _, tr, heq, hv, by rw [hv], Nat.lt_succ_self _, ?_⟩
  intro rawOps₂ m₂ e₂ tr₂ hne₂ heq₂
  obtain ⟨m₂', tr₂', heq₂', hv₂, _, _, _⟩ := applyEdits_spec m' rawOps₂ hd' hem' hne₂
  rw [heq₂'] at heq₂
  have hver := congrArg
    (fun x : Except String (TextModel × List ContentEvent × List TraceEv) =>
      match x with
      | .ok (_, e :: _, _) => e.versionId
      | _ => 0) heq₂
  dsimp only at hver
  show m.versionId + 1 < e₂.versionId
  rw [← hver, hv]
  omega

/-- C1 witness: the version bump and event stamp on a concrete edit. -/
theorem c1_witness :
    sampleModel.isDisposed = false ∧ sampleModel.emitter = ⟨0, none⟩ ∧
      ([sampleInsert] : List EditOperation) ≠ [] ∧
      ∃ m' e tr, sampleModel.applyEdits [sampleInsert] = .ok (m', [e], tr) ∧
        m'.versionId = sampleModel.versionId + 1 ∧ e.versionId = m'.versionId ∧
        sampleModel.versionId < e.versionId ∧
        ∀ rawOps₂ m₂ e₂ tr₂, rawOps₂ ≠ [] →
          m'.applyEdits rawOps₂ = .ok (m₂, [e₂], tr₂) → e.versionId < e₂.versionId :=
  ⟨rfl, rfl, by decide,
    (c1_version_monotone sampleModel [sampleInsert] rfl rfl (by decide)).imp
      fun m' h => h⟩

/-! ## Ordering of buffer commit, decoration repair and event fire -/

/-- The trace of one applyEdits call is empty, a bare buffer commit, or a
commit followed by decoration steps and one content fire. -/
theorem applyEditsTrace_shape (m : TextModel) (rawOps : List EditOperation) :
    TextModel.applyEditsTrace m rawOps = [] ∨
      TextModel.applyEditsTrace m rawOps = [TraceEv.bufferCommit] ∨
      ∃ mid, TextModel.applyEditsTrace m rawOps =
          TraceEv.bufferCommit :: mid ++ [TraceEv.fireContent] ∧
        ∀ x ∈ mid, x = TraceEv.decoFire ∨ isAcceptEv x = true := by
  unfold TextModel.applyEditsTrace TextModel.applyEdits
  by_cases hdis : (m.isDisposed = true ∧ rawOps ≠ [])
  · rw [if_pos hdis]
    exact Or.inl rfl
  · rw [if_neg hdis]
    unfold TextModel.doApplyEdits TextModel.bufferApplyEdits
    dsimp only
    split_ifs with hch
    · exact Or.inr (Or.inl rfl)
    · refine Or.inr (Or.inr ⟨_, rfl, ?_⟩)
      intro x hx
      rw [List.mem_flatMap] at hx
      obtain ⟨c, _, hxc⟩ := hx
      simp only [List.mem_cons, List.mem_singleton, List.not_mem_nil, or_false] at hxc
      rcases hxc with h' | h'
      · exact Or.inl h'
      · rw [h']
        exact Or.inr rfl

/-- C3 counterexample: in the trace of a concrete edit the buffer commit
sits at index 0 and the acceptReplace call at index 2, so acceptReplace
does not precede the buffer mutation as claimed. -/
theorem c3_counterexample :
    ¬ ∀ i j : Nat,
        (TextModel.applyEditsTrace sampleModel [sampleInsert])[i]? =
            some TraceEv.bufferCommit →
          ((TextModel.applyEditsTrace sampleModel [sampleInsert])[j]?).map isAcceptEv =
            some true → j < i := by
  intro h
  exact absurd (h 0 2 rfl rfl) (by omega)

/-- C3 (amended): in every applyEdits call the buffer mutation is
committed first, every acceptReplace call on the decoration store comes
after it, and the content-changed fire comes after every acceptReplace. -/
theorem c3_commit_accept_fire_order (m : TextModel) (rawOps : List EditOperation) :
    (∀ i j : Nat, (TextModel.applyEditsTrace m rawOps)[i]? = some TraceEv.bufferCommit →
        ((TextModel.applyEditsTrace m rawOps)[j]?).map isAcceptEv = some true → i < j) ∧
      (∀ i j : Nat, ((TextModel.applyEditsTrace m rawOps)[i]?).map isAcceptEv = some true →
        (TextModel.applyEditsTrace m rawOps)[j]? = some TraceEv.fireContent → i < j) := by
  rcases applyEditsTrace_shape m rawOps with h | h | ⟨mid, h, hmem⟩ <;> rw [h]
  · constructor <;> intro i j h1 h2 <;> simp at h1
  · constructor <;> intro i j h1 h2
    · cases j with
      | zero => simp [isAcceptEv] at h2
      | succ n => simp at h2
    · cases i with
      | zero => simp [isAcceptEv] at h1
      | succ n => simp at h1
  · have hcommit : ∀ i : Nat,
        ((TraceEv.bufferCommit :: mid) ++ [TraceEv.fireContent])[i]? =
          some TraceEv.bufferCommit → i = 0 := by
      intro i hi
      rcases Nat.lt_or_ge i (mid.length + 1) with hlt | hge
      · rw [List.getElem?_append_left (by simp; omega)] at hi
        cases i with
        | zero => rfl
        | succ n =>
          simp only [List.getElem?_cons_succ] at hi
          rcases hmem _ (List.getElem?_mem hi) with h' | h'
          · exact absurd h' (by decide)
          · exact absurd h' (by decide)
      · rw [List.getElem?_append_right (by simp; omega)] at hi
        simp only [List.length_cons] at hi
        rcases Nat.lt_or_ge (i - (mid.length + 1)) 1 with hs | hs
        · have h0 : i - (mid.length + 1) = 0 := by omega
          rw [h0] at hi
          simp at hi
        · rw [List.getElem?_eq_none (by simp; omega)] at hi
          exact absurd hi (by simp)
    have haccept : ∀ j : Nat,
        (((TraceEv.bufferCommit :: mid) ++ [TraceEv.fireContent])[j]?).map isAcceptEv =
          some true → 1 ≤ j ∧ j ≤ mid.length := by
      intro j hj
      rcases Nat.lt_or_ge j (mid.length + 1) with hlt | hge
      · rw [List.getElem?_append_left (by simp; omega)] at hj
        cases j with
        | zero =>
          simp [isAcceptEv] at hj
        | succ n =>
          simp only [List.getElem?_cons_succ] at hj
          refine ⟨by omega, by omega⟩
      · rw [List.getElem?_append_right (by simp; omega)] at hj
        simp only [List.length_cons] at hj
        rcases Nat.lt_or_ge (j - (mid.length + 1)) 1 with hs | hs
        · have h0 : j - (mid.length + 1) = 0 := by omega
          rw [h0] at hj
          simp [isAcceptEv] at hj
        · rw [List.getElem?_eq_none (by simp; omega)] at hj
          simp at hj
    have hfirePos : ∀ j : Nat,
        ((TraceEv.bufferCommit :: mid) ++ [TraceEv.fireContent])[j]? =
          some TraceEv.fireContent → j = mid.length + 1 := by
      intro j hj
      rcases Nat.lt_or_ge j (mid.length + 1) with hlt | hge
      · rw [List.getElem?_append_left (by simp; omega)] at hj
        cases j with
        | zero => simp at hj
        | succ n =>
          simp only [List.getElem?_cons_succ] at hj
          rcases hmem _ (List.getElem?_mem hj) with h' | h'
          · exact absurd h' (by decide)
          · exact absurd h' (by decide)
      · rw [List.getElem?_append_right (by simp; omega)] at hj
        simp only [List.length_cons] at hj
        rcases Nat.lt_or_ge (j - (mid.length + 1)) 1 with hs | hs
        · omega
        · rw [List.getElem?_eq_none (by simp; omega)] at hj
          simp at hj
    constructor
    · intro i j h1 h2
      have hi0 := hcommit i h1
      have hj1 := (haccept j h2).1
      omega
    · intro i j h1 h2
      have hi1 := (haccept i h1).2
      have hj1 := hfirePos j h2
      omega

/-- C3 witness: the amended ordering at the concrete trace, whose commit
is at index 0, acceptReplace at index 2 and fire at index 3. -/
theorem c3_witness :
    (TextModel.applyEditsTrace sampleModel [sampleInsert])[0]? =
        some TraceEv.bufferCommit ∧
      ((TextModel.applyEditsTrace sampleModel [sampleInsert])[2]?).map isAcceptEv =
        some true ∧
      (TextModel.applyEditsTrace sampleModel [sampleInsert])[3]? =
        some TraceEv.fireContent ∧
      (0 : Nat) < 2 ∧ (2 : Nat) < 3 :=
  ⟨rfl, rfl, rfl,
    (c3_commit_accept_fire_order sampleModel [sampleInsert]).1 0 2 rfl rfl,
    (c3_commit_accept_fire_order sampleModel [sampleInsert]).2 2 3 rfl rfl⟩

/-! ## setValue: flush event and decoration destruction -/

/-- C10: on a live model with an idle emitter, setValue with a non-null
string destroys every decoration (getAllDecorations is empty for every
owner) and emits exactly one content-changed event, flagged as a flush. -/
theorem c10_setValue_flush (m : TextModel) (s : Str) (hd : m.isDisposed = false)
    (hdp : m.isDisposing = false) (hem : m.emitter = ⟨0, none⟩) :
    ∃ m' e, m.setValue (some s) = .ok (m', [e]) ∧ e.isFlush = true ∧
      m'.deco.decorations = [] ∧ m'.deco.tree = [] ∧
      ∀ owner : Nat, m'.getAllDecorations owner = [] := by
  unfold TextModel.setValue
  rw [if_neg (by rw [hd]; exact Bool.false_ne_true)]
  dsimp only
  rw [if_neg (by rw [hdp]; exact Bool.false_ne_true)]
  have hfire : ∀ ev : ContentEvent, m.emitter.fire ev = (m.emitter, [ev]) := by
    intro ev
    rw [hem]
    rfl
  rw [hfire]
  refine ⟨_, _, rfl, rfl, rfl, rfl, fun owner => rfl⟩

/-- C10 witness: the flush event and decoration destruction at a
concrete model. -/
theorem c10_witness :
    sampleModel.isDisposed = false ∧ sampleModel.isDisposing = false ∧
      sampleModel.emitter = ⟨0, none⟩ ∧
      ∃ m' e, sampleModel.setValue (some [120, 10, 121]) = .ok (m', [e]) ∧
        e.isFlush = true ∧ m'.deco.decorations = [] ∧ m'.deco.tree = [] ∧
        ∀ owner : Nat, m'.getAllDecorations owner = [] :=
  ⟨rfl, rfl, rfl, c10_setValue_flush sampleModel [120, 10, 121] rfl rfl rfl⟩

/-! ## Disposed-instance behavior -/

/-- C6 counterexample: dispose a freshly created model holding one
decoration; removeAllDecorationsWithOwnerId silently succeeds without
touching anything, getDecorationOptions still returns the stored
options, and getAllDecorations still returns the decoration: not every
operation on a disposed instance fails fast. -/
theorem c6_counterexample :
    (∃ mPre, (TextModel.create [97]).deltaDecorations [] [⟨⟨1, 1, 1, 1⟩, ⟨0, 7⟩⟩] 0 =
        Except.ok ([1], mPre) ∧
      mPre.dispose.isDisposed = true ∧
      mPre.dispose.getDecorationOptions 1 = some ⟨0, 7⟩ ∧
      (mPre.dispose.getAllDecorations 0).length = 1 ∧
      mPre.dispose.removeAllDecorationsWithOwnerId 0 = Except.ok mPre.dispose) ∧
    ¬ (∀ (m : TextModel) (owner : Nat), m.isDisposed = true →
        ∃ msg, m.removeAllDecorationsWithOwnerId owner = Except.error msg) ∧
    ¬ (∀ (m : TextModel) (id : Nat), m.isDisposed = true →
        m.getDecorationOptions id = none) ∧
    ¬ (∀ (m : TextModel) (owner : Nat), m.isDisposed = true →
        m.getAllDecorations owner = []) := by
  refine ⟨⟨_, rfl, rfl, rfl, rfl, rfl⟩, ?_, ?_, ?_⟩
  · intro h
    obtain ⟨msg, hmsg⟩ := h (TextModel.create [97]).dispose 0 rfl
    exact absurd hmsg (by simp [TextModel.removeAllDecorationsWithOwnerId, TextModel.dispose])
  · intro h
    have hm := h (⟨⟨[[97]]⟩, true, false, 1,
      ⟨1, [(1, ⟨0, 0, 0, ⟨1, 1, 1, 1⟩, ⟨0, 7⟩, 1⟩)], [1]⟩, ⟨0, none⟩⟩ : TextModel) 1 rfl
    exact absurd hm (by simp [TextModel.getDecorationOptions, lookupDec, List.find?])
  · intro h
    have hm := h (⟨⟨[[97]]⟩, true, false, 1,
      ⟨1, [(1, ⟨0, 0, 0, ⟨1, 1, 1, 1⟩, ⟨0, 7⟩, 1⟩)], [1]⟩, ⟨0, none⟩⟩ : TextModel) 0 rfl
    have hlen : (TextModel.getAllDecorations (⟨⟨[[97]]⟩, true, false, 1,
      ⟨1, [(1, ⟨0, 0, 0, ⟨1, 1, 1, 1⟩, ⟨0, 7⟩, 1⟩)], [1]⟩, ⟨0, none⟩⟩ : TextModel) 0).length
        = 1 := rfl
    rw [hm] at hlen
    simp at hlen

/-- C6 (amended): the operations guarded by _assertNotDisposed fail fast
on a disposed model (setValue, getOffsetAt, getPositionAt,
validatePosition, validateRange, applyEdits with a nonempty operation
list, deltaDecorations), but removeAllDecorationsWithOwnerId silently
does nothing, and getDecorationOptions and getAllDecorations carry no
guard at all: they answer from the surviving decoration store exactly as
before the dispose. -/
theorem c6_disposed_access :
    (∀ (m : TextModel) (v : Option Str), m.isDisposed = true →
        m.setValue v = Except.error disposedMsg) ∧
      (∀ (m : TextModel) (p : Pos), m.isDisposed = true →
        m.getOffsetAt p = Except.error disposedMsg) ∧
      (∀ (m : TextModel) (off : Int), m.isDisposed = true →
        m.getPositionAt off = Except.error disposedMsg) ∧
      (∀ (m : TextModel) (p : Pos), m.isDisposed = true →
        m.validatePosition p = Except.error disposedMsg) ∧
      (∀ (m : TextModel) (r : Rng), m.isDisposed = true →
        m.validateRange r = Except.error disposedMsg) ∧
      (∀ (m : TextModel) (rawOps : List EditOperation), m.isDisposed = true →
        rawOps ≠ [] → m.applyEdits rawOps = Except.error disposedMsg) ∧
      (∀ (m : TextModel) (oldIds : List Nat) (newDecos : List DeltaDeco) (owner : Nat),
        m.isDisposed = true → m.deltaDecorations oldIds newDecos owner =
          Except.error disposedMsg) ∧
      (∀ (m : TextModel) (owner : Nat), m.isDisposed = true →
        m.removeAllDecorationsWithOwnerId owner = Except.ok m) ∧
      (∀ (m : TextModel) (id : Nat),
        m.dispose.getDecorationOptions id = m.getDecorationOptions id) ∧
      (∀ (m : TextModel) (owner : Nat),
        m.dispose.getAllDecorations owner = m.getAllDecorations owner) := by
  refine ⟨?_, ?_, ?_, ?_, ?_, ?_, ?_, ?_, ?_, ?_⟩
  · intro m v h
    unfold TextModel.setValue
    rw [if_pos h]
  · intro m p h
    unfold TextModel.getOffsetAt
    rw [if_pos h]
  · intro m off h
    unfold TextModel.getPositionAt
    rw [if_pos h]
  · intro m p h
    unfold TextModel.validatePosition
    rw [if_pos h]
  · intro m r h
    unfold TextModel.validateRange
    rw [if_pos h]
  · intro m rawOps h hne
    unfold TextModel.applyEdits
    rw [if_pos ⟨h, hne⟩]
  · intro m oldIds newDecos owner h
    unfold TextModel.deltaDecorations
    rw [if_pos h]
  · intro m owner h
    unfold TextModel.removeAllDecorationsWithOwnerId
    rw [if_pos h]
  · intro m id
    rfl
  · intro m owner
    rfl

/-- C6 witness: the guarded and unguarded behaviors at a concrete
disposed model. -/
theorem c6_witness :
    sampleModel.dispose.isDisposed = true ∧
      sampleModel.dispose.setValue none = Except.error disposedMsg ∧
      sampleModel.dispose.applyEdits [sampleInsert] = Except.error disposedMsg ∧
      sampleModel.dispose.removeAllDecorationsWithOwnerId 5 =
        Except.ok sampleModel.dispose ∧
      sampleModel.dispose.getAllDecorations 0 = sampleModel.getAllDecorations 0 :=
  ⟨rfl, c6_disposed_access.1 sampleModel.dispose none rfl,
    c6_disposed_access.2.2.2.2.2.1 sampleModel.dispose [sampleInsert] rfl
      (List.cons_ne_nil _ _),
    c6_disposed_access.2.2.2.2.2.2.2.1 sampleModel.dispose 5 rfl,
    c6_disposed_access.2.2.2.2.2.2.2.2.2 sampleModel.dispose 0⟩

/-! ## Decoration map operations -/

theorem lookupDec_set_self (m : List (Nat × IntervalNode)) (k : Nat) (v : IntervalNode) :
    lookupDec (setDec m k v) k = some v := by
  simp only [setDec, lookupDec]
  simp

theorem eraseDec_cons_drop (p : Nat × IntervalNode) (rest : List (Nat × IntervalNode))
    (k : Nat) (h : p.1 = k) : eraseDec (p :: rest) k = eraseDec rest k := by
  simp [eraseDec, h]

theorem eraseDec_cons_keep (p : Nat × IntervalNode) (rest : List (Nat × IntervalNode))
    (k : Nat) (h : ¬p.1 = k) : eraseDec (p :: rest) k = p :: eraseDec rest k := by
  simp [eraseDec, h]

theorem lookupDec_erase_ne (m : List (Nat × IntervalNode)) (k k' : Nat) (h : k' ≠ k) :
    lookupDec (eraseDec m k) k' = lookupDec m k' := by
  induction m with
  | nil => rfl
  | cons p rest ih =>
    by_cases hp : p.1 = k
    · rw [eraseDec_cons_drop p rest k hp, ih]
      simp only [lookupDec]
      rw [if_neg (by omega)]
    · rw [eraseDec_cons_keep p rest k hp]
      simp only [lookupDec]
      by_cases hp' : p.1 = k'
      · rw [if_pos hp', if_pos hp']
      · rw [if_neg hp', if_neg hp', ih]

theorem lookupDec_erase_self (m : List (Nat × IntervalNode)) (k : Nat) :
    lookupDec (eraseDec m k) k = none := by
  induction m with
  | nil => rfl
  | cons p rest ih =>
    by_cases hp : p.1 = k
    · rw [eraseDec_cons_drop p rest k hp]
      exact ih
    · rw [eraseDec_cons_keep p rest k hp]
      simp only [lookupDec]
      rw [if_neg hp]
      exact ih

theorem lookupDec_set_ne (m : List (Nat × IntervalNode)) (k : Nat) (v : IntervalNode)
    (k' : Nat) (h : k' ≠ k) : lookupDec (setDec m k v) k' = lookupDec m k' := by
  simp only [setDec, lookupDec]
  rw [if_neg (show ¬(k, v).1 = k' by simp; omega)]
  exact lookupDec_erase_ne m k k' h

theorem lookupDec_some_mem (m : List (Nat × IntervalNode)) (k : Nat) (v : IntervalNode)
    (h : lookupDec m k = some v) : (k, v) ∈ m := by
  induction m with
  | nil => exact absurd h (by simp [lookupDec])
  | cons p rest ih =>
    obtain ⟨pk, pv⟩ := p
    simp only [lookupDec] at h
    split_ifs at h with hp
    · injection h with hv
      rw [← hp, ← hv]
      exact List.mem_cons_self _ _
    · exact List.mem_cons_of_mem _ (ih h)

theorem mem_eraseTree (t : List Nat) (k x : Nat) : x ∈ eraseTree t k ↔ x ∈ t ∧ x ≠ k := by
  unfold eraseTree
  simp [List.mem_filter]

/-! ## The delta-decorations loop: case equations -/

theorem deltaLoopF_skip (b : TextBuffer) (vId owner fuel : Nat) (oldId : Nat)
    (oldRest : List Nat) (newDecos : List DeltaDeco) (st : DecoState)
    (hlook : lookupDec st.decorations oldId = none) :
    deltaLoopF b vId owner (fuel + 1) (oldId :: oldRest) newDecos st =
      deltaLoopF b vId owner fuel oldRest newDecos st := by
  simp only [deltaLoopF, hlook]

theorem deltaLoopF_fresh (b : TextBuffer) (vId owner fuel : Nat) (d : DeltaDeco)
    (ds : List DeltaDeco) (st : DecoState) :
    deltaLoopF b vId owner (fuel + 1) [] (d :: ds) st =
      ((st.lastDecorationId + 1) ::
          (deltaLoopF b vId owner fuel [] ds (freshState b vId owner d st)).1,
        (deltaLoopF b vId owner fuel [] ds (freshState b vId owner d st)).2) := rfl

theorem deltaLoopF_drain (b : TextBuffer) (vId owner fuel : Nat) (oldId : Nat)
    (oldRest : List Nat) (st : DecoState) (node : IntervalNode)
    (hlook : lookupDec st.decorations oldId = some node) :
    deltaLoopF b vId owner (fuel + 1) (oldId :: oldRest) [] st =
      deltaLoopF b vId owner fuel oldRest [] (drainState oldId st) := by
  simp only [deltaLoopF, hlook]

theorem deltaLoopF_reuse (b : TextBuffer) (vId owner fuel : Nat) (oldId : Nat)
    (oldRest : List Nat) (d : DeltaDeco) (ds : List DeltaDeco) (st : DecoState)
    (node : IntervalNode) (hlook : lookupDec st.decorations oldId = some node) :
    deltaLoopF b vId owner (fuel + 1) (oldId :: oldRest) (d :: ds) st =
      (oldId :: (deltaLoopF b vId owner fuel oldRest ds
            (reuseState b vId owner oldId d st)).1,
        (deltaLoopF b vId owner fuel oldRest ds (reuseState b vId owner oldId d st)).2) := by
  simp only [deltaLoopF, hlook]

/-- The id counter never decreases across the loop. -/
theorem deltaLoopF_lastId (b : TextBuffer) (vId owner : Nat) :
    ∀ (fuel : Nat) (oldIds : List Nat) (newDecos : List DeltaDeco) (st : DecoState),
      st.lastDecorationId ≤
        (deltaLoopF b vId owner fuel oldIds newDecos st).2.lastDecorationId := by
  intro fuel
  induction fuel with
  | zero => intro oldIds newDecos st; exact le_refl _
  | succ fuel ih =>
    intro oldIds newDecos st
    match oldIds, newDecos with
    | [], [] => exact le_refl _
    | [], d :: ds =>
      rw [deltaLoopF_fresh]
      exact le_trans (Nat.le_succ _) (ih [] ds (freshState b vId owner d st))
    | oldId :: oldRest, newDecos =>
      cases hlook : lookupDec st.decorations oldId with
      | none =>
        rw [deltaLoopF_skip b vId owner fuel oldId oldRest newDecos st hlook]
        exact ih oldRest newDecos st
      | some node =>
        cases newDecos with
        | nil =>
          rw [deltaLoopF_drain b vId owner fuel oldId oldRest st node hlook]
          exact ih oldRest [] (drainState oldId st)
        | cons d ds =>
          rw [deltaLoopF_reuse b vId owner fuel oldId oldRest d ds st node hlook]
          exact ih oldRest ds (reuseState b vId owner oldId d st)

/-- The loop returns exactly one id per new descriptor. -/
theorem deltaLoopF_length (b : TextBuffer) (vId owner : Nat) :
    ∀ (fuel : Nat) (oldIds : List Nat) (newDecos : List DeltaDeco) (st : DecoState),
      oldIds.length + newDecos.length ≤ fuel →
      (deltaLoopF b vId owner fuel oldIds newDecos st).1.length = newDecos.length := by
  intro fuel
  induction fuel with
  | zero =>
    intro oldIds newDecos st hfuel
    have h1 : newDecos = [] := by
      cases newDecos with
      | nil => rfl
      | cons d ds => simp at hfuel
    rw [h1]
    rfl
  | succ fuel ih =>
    intro oldIds newDecos st hfuel
    match oldIds, newDecos with
    | [], [] => rfl
    | [], d :: ds =>
      rw [deltaLoopF_fresh]
      simp only [List.length_cons]
      rw [ih [] ds (freshState b vId owner d st) (by simp at hfuel ⊢; omega)]
    | oldId :: oldRest, newDecos =>
      cases hlook : lookupDec st.decorations oldId with
      | none =>
        rw [deltaLoopF_skip b vId owner fuel oldId oldRest newDecos st hlook]
        exact ih oldRest newDecos st (by simp at hfuel; omega)
      | some node =>
        cases newDecos with
        | nil =>
          rw [deltaLoopF_drain b vId owner fuel oldId oldRest st node hlook]
          exact ih oldRest [] (drainState oldId st) (by simp at hfuel ⊢; omega)
        | cons d ds =>
          rw [deltaLoopF_reuse b vId owner fuel oldId oldRest d ds st node hlook]
          simp only [List.length_cons]
          rw [ih oldRest ds (reuseState b vId owner oldId d st) (by simp at hfuel ⊢; omega)]

theorem mem_eraseDec (m : List (Nat × IntervalNode)) (k : Nat) (p : Nat × IntervalNode)
    (h : p ∈ eraseDec m k) : p ∈ m ∧ p.1 ≠ k := by
  unfold eraseDec at h
  have := List.mem_filter.mp h
  simpa using this

theorem decoWFKeys_fresh (b : TextBuffer) (vId owner : Nat) (d : DeltaDeco) (st : DecoState)
    (h : decoWFKeys st) : decoWFKeys (freshState b vId owner d st) := by
  intro p hp
  unfold freshState at hp ⊢
  dsimp only at hp ⊢
  unfold setDec at hp
  rcases List.mem_cons.mp hp with h1 | h1
  · rw [h1]
  · have := mem_eraseDec _ _ _ h1
    have := h p this.1
    omega

theorem decoWFKeys_drain (oldId : Nat) (st : DecoState) (h : decoWFKeys st) :
    decoWFKeys (drainState oldId st) := by
  intro p hp
  unfold drainState at hp ⊢
  dsimp only at hp ⊢
  exact h p (mem_eraseDec _ _ _ hp).1

theorem decoWFKeys_reuse (b : TextBuffer) (vId owner oldId : Nat) (d : DeltaDeco)
    (st : DecoState) (node : IntervalNode)
    (hlook : lookupDec st.decorations oldId = some node) (h : decoWFKeys st) :
    decoWFKeys (reuseState b vId owner oldId d st) := by
  intro p hp
  unfold reuseState at hp ⊢
  dsimp only at hp ⊢
  unfold setDec at hp
  rcases List.mem_cons.mp hp with h1 | h1
  · rw [h1]
    have hb := h _ (lookupDec_some_mem _ _ node hlook)
    exact hb
  · exact h p (mem_eraseDec _ _ _ h1).1

theorem decoWFTree_fresh (b : TextBuffer) (vId owner : Nat) (d : DeltaDeco) (st : DecoState)
    (h : decoWFTree st) : decoWFTree (freshState b vId owner d st) := by
  intro id hid
  unfold freshState at hid ⊢
  dsimp only at hid ⊢
  rcases List.mem_cons.mp hid with h1 | h1
  · rw [h1]
    exact ⟨_, lookupDec_set_self _ _ _⟩
  · by_cases he : id = st.lastDecorationId + 1
    · rw [he]
      exact ⟨_, lookupDec_set_self _ _ _⟩
    · obtain ⟨n, hn⟩ := h id h1
      refine ⟨n, ?_⟩
      rw [lookupDec_set_ne _ _ _ _ he]
      exact hn

theorem decoWFTree_drain (oldId : Nat) (st : DecoState) (h : decoWFTree st) :
    decoWFTree (drainState oldId st) := by
  intro id hid
  unfold drainState at hid ⊢
  dsimp only at hid ⊢
  obtain ⟨h1, h2⟩ := (mem_eraseTree _ _ _).mp hid
  obtain ⟨n, hn⟩ := h id h1
  refine ⟨n, ?_⟩
  rw [lookupDec_erase_ne _ _ _ h2]
  exact hn

theorem decoWFTree_reuse (b : TextBuffer) (vId owner oldId : Nat) (d : DeltaDeco)
    (st : DecoState) (h : decoWFTree st) :
    decoWFTree (reuseState b vId owner oldId d st) := by
  intro id hid
  unfold reuseState at hid ⊢
  dsimp only at hid ⊢
  rcases List.mem_cons.mp hid with h1 | h1
  · rw [h1]
    exact ⟨_, lookupDec_set_self _ _ _⟩
  · obtain ⟨h2, h3⟩ := (mem_eraseTree _ _ _).mp h1
    obtain ⟨n, hn⟩ := h id h2
    refine ⟨n, ?_⟩
    rw [lookupDec_set_ne _ _ _ _ h3]
    exact hn

/-- The loop preserves the id-counter bound on map keys. -/
theorem deltaLoopF_wfKeys (b : TextBuffer) (vId owner : Nat) :
    ∀ (fuel : Nat) (oldIds : List Nat) (newDecos : List DeltaDeco) (st : DecoState),
      decoWFKeys st → decoWFKeys (deltaLoopF b vId owner fuel oldIds newDecos st).2 := by
  intro fuel
  induction fuel with
  | zero => intro oldIds newDecos st h; exact h
  | succ fuel ih =>
    intro oldIds newDecos st h
    match oldIds, newDecos with
    | [], [] => exact h
    | [], d :: ds =>
      rw [deltaLoopF_fresh]
      exact ih [] ds _ (decoWFKeys_fresh b vId owner d st h)
    | oldId :: oldRest, newDecos =>
      cases hlook : lookupDec st.decorations oldId with
      | none =>
        rw [deltaLoopF_skip b vId owner fuel oldId oldRest newDecos st hlook]
        exact ih oldRest newDecos st h
      | some node =>
        cases newDecos with
        | nil =>
          rw [deltaLoopF_drain b vId owner fuel oldId oldRest st node hlook]
          exact ih oldRest [] _ (decoWFKeys_drain oldId st h)
        | cons d ds =>
          rw [deltaLoopF_reuse b vId owner fuel oldId oldRest d ds st node hlook]
          exact ih oldRest ds _ (decoWFKeys_reuse b vId owner oldId d st node hlook h)

/-- The loop preserves tree-to-map coherence. -/
theorem deltaLoopF_wfTree (b : TextBuffer) (vId owner : Nat) :
    ∀ (fuel : Nat) (oldIds : List Nat) (newDecos : List DeltaDeco) (st : DecoState),
      decoWFTree st → decoWFTree (deltaLoopF b vId owner fuel oldIds newDecos st).2 := by
  intro fuel
  induction fuel with
  | zero => intro oldIds newDecos st h; exact h
  | succ fuel ih =>
    intro oldIds newDecos st h
    match oldIds, newDecos with
    | [], [] => exact h
    | [], d :: ds =>
      rw [deltaLoopF_fresh]
      exact ih [] ds _ (decoWFTree_fresh b vId owner d st h)
    | oldId :: oldRest, newDecos =>
      cases hlook : lookupDec st.decorations oldId with
      | none =>
        rw [deltaLoopF_skip b vId owner fuel oldId oldRest newDecos st hlook]
        exact ih oldRest newDecos st h
      | some node =>
        cases newDecos with
        | nil =>
          rw [deltaLoopF_drain b vId owner fuel oldId oldRest st node hlook]
          exact ih oldRest [] _ (decoWFTree_drain oldId st h)
        | cons d ds =>
          rw [deltaLoopF_reuse b vId owner fuel oldId oldRest d ds st node hlook]
          exact ih oldRest ds _ (decoWFTree_reuse b vId owner oldId d st h)

/-- Ids outside the processed old set and below the id counter are left
alone by the loop, in both the map and the tree. -/
theorem deltaLoopF_frame (b : TextBuffer) (vId owner : Nat) :
    ∀ (fuel : Nat) (oldIds : List Nat) (newDecos : List DeltaDeco) (st : DecoState) (id : Nat),
      id ∉ oldIds → id ≤ st.lastDecorationId →
      lookupDec (deltaLoopF b vId owner fuel oldIds newDecos st).2.decorations id =
          lookupDec st.decorations id ∧
        (id ∈ (deltaLoopF b vId owner fuel oldIds newDecos st).2.tree ↔ id ∈ st.tree) := by
  intro fuel
  induction fuel with
  | zero => intro oldIds newDecos st id _ _; exact ⟨rfl, Iff.rfl⟩
  | succ fuel ih =>
    intro oldIds newDecos st id hnot hle
    match oldIds, newDecos with
    | [], [] => exact ⟨rfl, Iff.rfl⟩
    | [], d :: ds =>
      rw [deltaLoopF_fresh]
      have hne : id ≠ st.lastDecorationId + 1 := by omega
      have hstep := ih [] ds (freshState b vId owner d st) id (by simp)
        (by unfold freshState; dsimp only; omega)
      refine ⟨?_, ?_⟩
      · rw [hstep.1]
        unfold freshState
        dsimp only
        exact lookupDec_set_ne _ _ _ _ hne
      · rw [hstep.2]
        unfold freshState
        dsimp only
        simp only [List.mem_cons]
        constructor
        · rintro (h1 | h1)
          · exact absurd h1 hne
          · exact h1
        · exact fun h1 => Or.inr h1
    | oldId :: oldRest, newDecos =>
      have hnotR : id ∉ oldRest := fun hc => hnot (List.mem_cons_of_mem _ hc)
      have hneO : id ≠ oldId := fun hc => hnot (hc ▸ List.mem_cons_self _ _)
      cases hlook : lookupDec st.decorations oldId with
      | none =>
        rw [deltaLoopF_skip b vId owner fuel oldId oldRest newDecos st hlook]
        exact ih oldRest newDecos st id hnotR hle
      | some node =>
        cases newDecos with
        | nil =>
          rw [deltaLoopF_drain b vId owner fuel oldId oldRest st node hlook]
          have hstep := ih oldRest [] (drainState oldId st) id hnotR
            (by unfold drainState; dsimp only; omega)
          refine ⟨?_, ?_⟩
          · rw [hstep.1]
            unfold drainState
            dsimp only
            exact lookupDec_erase_ne _ _ _ hneO
          · rw [hstep.2]
            unfold drainState
            dsimp only
            rw [mem_eraseTree]
            exact ⟨fun h1 => h1.1, fun h1 => ⟨h1, hneO⟩⟩
        | cons d ds =>
          rw [deltaLoopF_reuse b vId owner fuel oldId oldRest d ds st node hlook]
          have hstep := ih oldRest ds (reuseState b vId owner oldId d st) id hnotR
            (by unfold reuseState; dsimp only; omega)
          refine ⟨?_, ?_⟩
          · rw [hstep.1]
            unfold reuseState
            dsimp only
            exact lookupDec_set_ne _ _ _ _ hneO
          · rw [hstep.2]
            unfold reuseState
            dsimp only
            simp only [List.mem_cons, mem_eraseTree]
            constructor
            · rintro (h1 | h1)
              · exact absurd h1 hneO
              · exact h1.1
            · exact fun h1 => Or.inr ⟨h1, hneO⟩

/-- Every id live after the loop was live before or was returned. -/
theorem deltaLoopF_new (b : TextBuffer) (vId owner : Nat) :
    ∀ (fuel : Nat) (oldIds : List Nat) (newDecos : List DeltaDeco) (st : DecoState) (id : Nat),
      (lookupDec (deltaLoopF b vId owner fuel oldIds newDecos st).2.decorations id ≠ none →
        lookupDec st.decorations id ≠ none ∨
          id ∈ (deltaLoopF b vId owner fuel oldIds newDecos st).1) ∧
      (id ∈ (deltaLoopF b vId owner fuel oldIds newDecos st).2.tree →
        id ∈ st.tree ∨ id ∈ (deltaLoopF b vId owner fuel oldIds newDecos st).1) := by
  intro fuel
  induction fuel with
  | zero => intro oldIds newDecos st id; exact ⟨fun h => Or.inl h, fun h => Or.inl h⟩
  | succ fuel ih =>
    intro oldIds newDecos st id
    match oldIds, newDecos with
    | [], [] => exact ⟨fun h => Or.inl h, fun h => Or.inl h⟩
    | [], d :: ds =>
      rw [deltaLoopF_fresh]
      have hstep := ih [] ds (freshState b vId owner d st) id
      dsimp only
      constructor
      · intro h1
        rcases hstep.1 h1 with h2 | h2
        · by_cases he : id = st.lastDecorationId + 1
          · exact Or.inr (by rw [he]; exact List.mem_cons_self _ _)
          · left
            unfold freshState at h2
            dsimp only at h2
            rw [lookupDec_set_ne _ _ _ _ he] at h2
            exact h2
        · exact Or.inr (List.mem_cons_of_mem _ h2)
      · intro h1
        rcases hstep.2 h1 with h2 | h2
        · unfold freshState at h2
          dsimp only at h2
          rcases List.mem_cons.mp h2 with h3 | h3
          · exact Or.inr (by rw [h3]; exact List.mem_cons_self _ _)
          · exact Or.inl h3
        · exact Or.inr (List.mem_cons_of_mem _ h2)
    | oldId :: oldRest, newDecos =>
      cases hlook : lookupDec st.decorations oldId with
      | none =>
        rw [deltaLoopF_skip b vId owner fuel oldId oldRest newDecos st hlook]
        exact ih oldRest newDecos st id
      | some node =>
        cases newDecos with
        | nil =>
          rw [deltaLoopF_drain b vId owner fuel oldId oldRest st node hlook]
          have hstep := ih oldRest [] (drainState oldId st) id
          constructor
          · intro h1
            rcases hstep.1 h1 with h2 | h2
            · left
              unfold drainState at h2
              dsimp only at h2
              by_cases he : id = oldId
              · rw [he, lookupDec_erase_self] at h2
                exact absurd rfl h2
              · rw [lookupDec_erase_ne _ _ _ he] at h2
                exact h2
            · exact Or.inr h2
          · intro h1
            rcases hstep.2 h1 with h2 | h2
            · left
              unfold drainState at h2
              dsimp only at h2
              exact ((mem_eraseTree _ _ _).mp h2).1
            · exact Or.inr h2
        | cons d ds =>
          rw [deltaLoopF_reuse b vId owner fuel oldId oldRest d ds st node hlook]
          have hstep := ih oldRest ds (reuseState b vId owner oldId d st) id
          dsimp only
          constructor
          · intro h1
            rcases hstep.1 h1 with h2 | h2
            · by_cases he : id = oldId
              · exact Or.inr (by rw [he]; exact List.mem_cons_self _ _)
              · left
                unfold reuseState at h2
                dsimp only at h2
                rw [lookupDec_set_ne _ _ _ _ he] at h2
                exact h2
            · exact Or.inr (List.mem_cons_of_mem _ h2)
          · intro h1
            rcases hstep.2 h1 with h2 | h2
            · unfold reuseState at h2
              dsimp only at h2
              rcases List.mem_cons.mp h2 with h3 | h3
              · exact Or.inr (by rw [h3]; exact List.mem_cons_self _ _)
              · exact Or.inl ((mem_eraseTree _ _ _).mp h3).1
            · exact Or.inr (List.mem_cons_of_mem _ h2)

/-- Old ids that are not among the returned ids name no decoration after
the loop, neither in the map nor in the tree. -/
theorem deltaLoopF_removed (b : TextBuffer) (vId owner : Nat) :
    ∀ (fuel : Nat) (oldIds : List Nat) (newDecos : List DeltaDeco) (st : DecoState),
      oldIds.length + newDecos.length ≤ fuel →
      decoWFKeys st → decoWFTree st → oldIds.Nodup →
      ∀ id ∈ oldIds, id ∉ (deltaLoopF b vId owner fuel oldIds newDecos st).1 →
        lookupDec (deltaLoopF b vId owner fuel oldIds newDecos st).2.decorations id = none ∧
          id ∉ (deltaLoopF b vId owner fuel oldIds newDecos st).2.tree := by
  intro fuel
  induction fuel with
  | zero =>
    intro oldIds newDecos st hfuel _ _ _ id hid hnotres
    have : oldIds = [] := by
      cases oldIds with
      | nil => rfl
      | cons x xs => simp at hfuel
    rw [this] at hid
    exact absurd hid (List.not_mem_nil _)
  | succ fuel ih =>
    intro oldIds newDecos st hfuel hwk hwt hnd id hid hnotres
    match oldIds, newDecos with
    | [], _ => exact absurd hid (List.not_mem_nil _)
    | oldId :: oldRest, newDecos =>
      have hndR : oldRest.Nodup := (List.nodup_cons.mp hnd).2
      have hndO : oldId ∉ oldRest := (List.nodup_cons.mp hnd).1
      cases hlook : lookupDec st.decorations oldId with
      | none =>
        rw [deltaLoopF_skip b vId owner fuel oldId oldRest newDecos st hlook] at hnotres ⊢
        rcases List.mem_cons.mp hid with hidO | hidR
        · constructor
          · by_contra hc
            rcases (deltaLoopF_new b vId owner fuel oldRest newDecos st id).1 hc with h2 | h2
            · rw [hidO, hlook] at h2
              exact absurd rfl h2
            · exact hnotres h2
          · intro hc
            rcases (deltaLoopF_new b vId owner fuel oldRest newDecos st id).2 hc with h2 | h2
            · obtain ⟨n, hn⟩ := hwt id h2
              rw [hidO, hlook] at hn
              exact absurd hn (by simp)
            · exact hnotres h2
        · exact ih oldRest newDecos st (by simp at hfuel; omega) hwk hwt hndR id hidR hnotres
      | some node =>
        cases newDecos with
        | nil =>
          rw [deltaLoopF_drain b vId owner fuel oldId oldRest st node hlook] at hnotres ⊢
          rcases List.mem_cons.mp hid with hidO | hidR
          · have hle : id ≤ (drainState oldId st).lastDecorationId := by
              unfold drainState
              dsimp only
              have := hwk _ (lookupDec_some_mem _ _ node hlook)
              rw [hidO]
              exact this
            have hfr := deltaLoopF_frame b vId owner fuel oldRest [] (drainState oldId st)
              id (by rw [hidO]; exact hndO) hle
            constructor
            · rw [hfr.1]
              unfold drainState
              dsimp only
              rw [hidO, lookupDec_erase_self]
            · rw [hfr.2]
              unfold drainState
              dsimp only
              rw [mem_eraseTree, hidO]
              rintro ⟨_, hne⟩
              exact hne rfl
          · exact ih oldRest [] (drainState oldId st) (by simp at hfuel ⊢; omega)
              (decoWFKeys_drain oldId st hwk)
              (decoWFTree_drain oldId st hwt) hndR id hidR hnotres
        | cons d ds =>
          rw [deltaLoopF_reuse b vId owner fuel oldId oldRest d ds st node hlook] at hnotres ⊢
          rcases List.mem_cons.mp hid with hidO | hidR
          · exact absurd (by rw [hidO]; exact List.mem_cons_self _ _) hnotres
          · have hnotres2 : id ∉ (deltaLoopF b vId owner fuel oldRest ds
                (reuseState b vId owner oldId d st)).1 :=
              fun hc => hnotres (List.mem_cons_of_mem _ hc)
            exact ih oldRest ds (reuseState b vId owner oldId d st)
              (by simp at hfuel ⊢; omega)
              (decoWFKeys_reuse b vId owner oldId d st node hlook hwk)
              (decoWFTree_reuse b vId owner oldId d st hwt) hndR id hidR hnotres2

/-- decoWFTree restated through Option.isSome, which is decidable on
concrete states. -/
theorem decoWFTree_iff (st : DecoState) :
    decoWFTree st ↔ ∀ id ∈ st.tree, (lookupDec st.decorations id).isSome = true := by
  unfold decoWFTree
  constructor
  · intro h id hid
    obtain ⟨n, hn⟩ := h id hid
    rw [hn]
    rfl
  · intro h id hid
    obtain ⟨n, hn⟩ := Option.isSome_iff_exists.mp (h id hid)
    exact ⟨n, hn⟩

/-- The i-th returned id names, in the final store, exactly the node
built from the i-th descriptor, and it sits in the tree. -/
theorem deltaLoopF_content (b : TextBuffer) (vId owner : Nat) :
    ∀ (fuel : Nat) (oldIds : List Nat) (newDecos : List DeltaDeco) (st : DecoState),
      oldIds.length + newDecos.length ≤ fuel →
      decoWFKeys st → oldIds.Nodup →
      ∀ (i : Nat) (d : DeltaDeco), newDecos[i]? = some d →
        ∃ id, (deltaLoopF b vId owner fuel oldIds newDecos st).1[i]? = some id ∧
          lookupDec (deltaLoopF b vId owner fuel oldIds newDecos st).2.decorations id =
            some (newNodeFor b vId owner d) ∧
          id ∈ (deltaLoopF b vId owner fuel oldIds newDecos st).2.tree := by
  intro fuel
  induction fuel with
  | zero =>
    intro oldIds newDecos st hfuel _ _ i d hd
    have : newDecos = [] := by
      cases newDecos with
      | nil => rfl
      | cons x xs => simp at hfuel
    rw [this] at hd
    simp at hd
  | succ fuel ih =>
    intro oldIds newDecos st hfuel hwk hnd i d hd
    match oldIds, newDecos with
    | [], [] => simp at hd
    | [], d0 :: ds =>
      rw [deltaLoopF_fresh]
      cases i with
      | zero =>
        simp only [List.getElem?_cons_zero, Option.some.injEq] at hd
        refine ⟨st.lastDecorationId + 1, by rw [List.getElem?_cons_zero], ?_, ?_⟩
        · have hfr := deltaLoopF_frame b vId owner fuel [] ds (freshState b vId owner d0 st)
            (st.lastDecorationId + 1) (by simp)
            (by unfold freshState; dsimp only; omega)
          rw [hfr.1]
          unfold freshState
          dsimp only
          rw [lookupDec_set_self, hd]
        · have hfr := deltaLoopF_frame b vId owner fuel [] ds (freshState b vId owner d0 st)
            (st.lastDecorationId + 1) (by simp)
            (by unfold freshState; dsimp only; omega)
          rw [hfr.2]
          unfold freshState
          dsimp only
          exact List.mem_cons_self _ _
      | succ n =>
        simp only [List.getElem?_cons_succ] at hd
        obtain ⟨id, hid1, hid2, hid3⟩ := ih [] ds (freshState b vId owner d0 st)
          (by simp at hfuel ⊢; omega) (decoWFKeys_fresh b vId owner d0 st hwk)
          List.nodup_nil n d hd
        exact ⟨id, by rw [List.getElem?_cons_succ]; exact hid1, hid2, hid3⟩
    | oldId :: oldRest, newDecos =>
      have hndR : oldRest.Nodup := (List.nodup_cons.mp hnd).2
      have hndO : oldId ∉ oldRest := (List.nodup_cons.mp hnd).1
      cases hlook : lookupDec st.decorations oldId with
      | none =>
        rw [deltaLoopF_skip b vId owner fuel oldId oldRest newDecos st hlook]
        exact ih oldRest newDecos st (by simp at hfuel; omega) hwk hndR i d hd
      | some node =>
        cases newDecos with
        | nil => simp at hd
        | cons d0 ds =>
          rw [deltaLoopF_reuse b vId owner fuel oldId oldRest d0 ds st node hlook]
          cases i with
          | zero =>
            simp only [List.getElem?_cons_zero, Option.some.injEq] at hd
            have hle : oldId ≤ (reuseState b vId owner oldId d0 st).lastDecorationId := by
              unfold reuseState
              dsimp only
              exact hwk _ (lookupDec_some_mem _ _ node hlook)
            have hfr := deltaLoopF_frame b vId owner fuel oldRest ds
              (reuseState b vId owner oldId d0 st) oldId hndO hle
            refine ⟨oldId, by rw [List.getElem?_cons_zero], ?_, ?_⟩
            · rw [hfr.1]
              unfold reuseState
              dsimp only
              rw [lookupDec_set_self, hd]
            · rw [hfr.2]
              unfold reuseState
              dsimp only
              exact List.mem_cons_self _ _
          | succ n =>
            simp only [List.getElem?_cons_succ] at hd
            obtain ⟨id, hid1, hid2, hid3⟩ := ih oldRest ds
              (reuseState b vId owner oldId d0 st) (by simp at hfuel ⊢; omega)
              (decoWFKeys_reuse b vId owner oldId d0 st node hlook hwk) hndR n d hd
            exact ⟨id, by rw [List.getElem?_cons_succ]; exact hid1, hid2, hid3⟩

/-- C2: deltaDecorations on a live, well-formed model returns one id per
descriptor, in order; the i-th id names a live tree decoration whose
range and options come from the i-th descriptor, and the old ids not
reused for new decorations no longer name anything. -/
theorem c2_deltaDecorations (m : TextModel) (oldIds : List Nat) (newDecos : List DeltaDeco)
    (owner : Nat) (hd : m.isDisposed = false) (hwk : decoWFKeys m.deco)
    (hwt : decoWFTree m.deco) (hnd : oldIds.Nodup) :
    ∃ ids m', m.deltaDecorations oldIds newDecos owner = .ok (ids, m') ∧
      ids.length = newDecos.length ∧
      (∀ (i : Nat) (d : DeltaDeco), newDecos[i]? = some d →
        ∃ id n, ids[i]? = some id ∧ lookupDec m'.deco.decorations id = some n ∧
          n.range = validateRangeRelaxed m.buffer d.range ∧ n.options = d.options ∧
          n.ownerId = owner ∧ id ∈ m'.deco.tree) ∧
      (∀ id ∈ oldIds, id ∉ ids → lookupDec m'.deco.decorations id = none ∧
        id ∉ m'.deco.tree) := by
  unfold TextModel.deltaDecorations
  rw [if_neg (by rw [hd]; exact Bool.false_ne_true)]
  by_cases hnil : oldIds = [] ∧ newDecos = []
  · rw [if_pos hnil]
    refine ⟨[], m, rfl, by rw [hnil.2]; rfl, ?_, ?_⟩
    · intro i d hd2
      rw [hnil.2] at hd2
      simp at hd2
    · intro id hid
      rw [hnil.1] at hid
      exact absurd hid (List.not_mem_nil _)
  · rw [if_neg hnil]
    refine ⟨_, _, rfl, ?_, ?_, ?_⟩
    · exact deltaLoopF_length m.buffer m.versionId owner _ oldIds newDecos m.deco (le_refl _)
    · intro i d hd2
      obtain ⟨id, h1, h2, h3⟩ := deltaLoopF_content m.buffer m.versionId owner _
        oldIds newDecos m.deco (le_refl _) hwk hnd i d hd2
      exact ⟨id, newNodeFor m.buffer m.versionId owner d, h1, h2, rfl, rfl, rfl, h3⟩
    · intro id hid hnotres
      exact deltaLoopF_removed m.buffer m.versionId owner _ oldIds newDecos m.deco
        (le_refl _) hwk hwt hnd id hid hnotres

/-- C2 witness: replacing one decoration by two on a concrete model. -/
theorem c2_witness :
    ∃ ids1 m1, sampleModel.deltaDecorations [] [⟨⟨1, 1, 1, 2⟩, ⟨0, 7⟩⟩] 3 =
        Except.ok (ids1, m1) ∧
      ids1 = [1] ∧
      ∃ ids2 m2, m1.deltaDecorations [1] [⟨⟨2, 1, 2, 2⟩, ⟨1, 8⟩⟩, ⟨⟨1, 2, 1, 3⟩, ⟨2, 9⟩⟩] 3 =
          Except.ok (ids2, m2) ∧
        ids2.length = 2 ∧
        (∃ id n, ids2[0]? = some id ∧ lookupDec m2.deco.decorations id = some n ∧
          n.range = validateRangeRelaxed m1.buffer ⟨2, 1, 2, 2⟩ ∧ n.options = ⟨1, 8⟩ ∧
          n.ownerId = 3 ∧ id ∈ m2.deco.tree) := by
  refine ⟨[1], _, rfl, rfl, ?_⟩
  obtain ⟨ids2, m2, heq, hlen, hcont, _⟩ :=
    c2_deltaDecorations (match sampleModel.deltaDecorations [] [⟨⟨1, 1, 1, 2⟩, ⟨0, 7⟩⟩] 3 with
      | .ok r => r.2
      | .error _ => sampleModel) [1] [⟨⟨2, 1, 2, 2⟩, ⟨1, 8⟩⟩, ⟨⟨1, 2, 1, 3⟩, ⟨2, 9⟩⟩] 3
      rfl (by unfold decoWFKeys; decide) (by rw [decoWFTree_iff]; decide) (by decide)
  obtain ⟨id, n, h1, h2, h3, h4, h5, h6⟩ := hcont 0 ⟨⟨2, 1, 2, 2⟩, ⟨1, 8⟩⟩ rfl
  exact ⟨ids2, m2, heq, hlen, id, n, h1, h2, h3, h4, h5, h6⟩

end TextModelSpec
